import Mathlib

/-!
Verification development for the LinkedIn keyword-filter engine.

JavaScript strings are modelled as `List Char` (one element per Unicode code
point).  The engine exists in two source variants: the `dom-utils.js` variant
and the alternate variant (`part_002`/`part_003`); both are embedded.  The
regular-expression character classes used by the source (`\s`, `\w`, `\p{L}`,
`\p{N}`, the combining-mark block, the emoji blocks) are modelled as decidable
character predicates below; `String.prototype.toLowerCase` and the `NFD`
normalization are modelled on the ASCII/Latin-1 range by finite tables, which
covers every character class the source code manipulates explicitly.
-/

/-- Strings are lists of Unicode code points. -/
abbrev Str := List Char

/-- The JavaScript `\s` class (WhiteSpace and LineTerminator code points). -/
def isJsWs (c : Char) : Bool :=
  let n := c.toNat
  n == 0x9 || n == 0xA || n == 0xB || n == 0xC || n == 0xD || n == 0x20 ||
  n == 0xA0 || n == 0x1680 || (0x2000 ≤ n && n ≤ 0x200A) || n == 0x2028 ||
  n == 0x2029 || n == 0x202F || n == 0x205F || n == 0x3000 || n == 0xFEFF

/-- The JavaScript `\w` class: ASCII letters, digits and underscore. -/
def isWordCh (c : Char) : Bool :=
  let n := c.toNat
  (0x61 ≤ n && n ≤ 0x7A) || (0x41 ≤ n && n ≤ 0x5A) || (0x30 ≤ n && n ≤ 0x39) ||
  n == 0x5F

/-- Combining diacritical marks, the block `U+0300 – U+036F` stripped by the
normalizer after NFD decomposition. -/
def isMark (c : Char) : Bool :=
  0x300 ≤ c.toNat && c.toNat ≤ 0x36F

/-- The six emoji / pictograph code-point ranges removed by the normalizer. -/
def isEmojiCh (c : Char) : Bool :=
  let n := c.toNat
  (0x1F600 ≤ n && n ≤ 0x1F64F) || (0x1F300 ≤ n && n ≤ 0x1F5FF) ||
  (0x1F680 ≤ n && n ≤ 0x1F6FF) || (0x1F1E0 ≤ n && n ≤ 0x1F1FF) ||
  (0x2600 ≤ n && n ≤ 0x26FF) || (0x2700 ≤ n && n ≤ 0x27BF)

/-- Latin-1 Supplement / Latin Extended-A letters `U+00C0 – U+017F` kept by the
alternate normalizer's punctuation filter (`À-ſ`). -/
def isLatinExt (c : Char) : Bool :=
  0xC0 ≤ c.toNat && c.toNat ≤ 0x17F

/-- Body characters of an `@mention`/`#hashtag` token: the source regex class
`[\p{L}\p{N}_-]`, modelled on the ASCII and Latin `U+00C0 – U+017F` letter
ranges (excluding `×` and `÷`, which are not letters). -/
def isBodyCh (c : Char) : Bool :=
  let n := c.toNat
  (0x61 ≤ n && n ≤ 0x7A) || (0x41 ≤ n && n ≤ 0x5A) || (0x30 ≤ n && n ≤ 0x39) ||
  n == 0x5F || n == 0x2D ||
  (isLatinExt c && n != 0xD7 && n != 0xF7)

/-- Case table for `String.prototype.toLowerCase`, covering the ranges the
source manipulates: ASCII `A – Z` and Latin-1 `À – Þ` (excluding `×`). -/
def lowerPairs : List (Char × Char) :=
  [('A','a'),('B','b'),('C','c'),('D','d'),('E','e'),('F','f'),('G','g'),
   ('H','h'),('I','i'),('J','j'),('K','k'),('L','l'),('M','m'),('N','n'),
   ('O','o'),('P','p'),('Q','q'),('R','r'),('S','s'),('T','t'),('U','u'),
   ('V','v'),('W','w'),('X','x'),('Y','y'),('Z','z'),
   ('À','à'),('Á','á'),('Â','â'),('Ã','ã'),('Ä','ä'),('Å','å'),('Æ','æ'),
   ('Ç','ç'),('È','è'),('É','é'),('Ê','ê'),('Ë','ë'),('Ì','ì'),('Í','í'),
   ('Î','î'),('Ï','ï'),('Ð','ð'),('Ñ','ñ'),('Ò','ò'),('Ó','ó'),('Ô','ô'),
   ('Õ','õ'),('Ö','ö'),('Ø','ø'),('Ù','ù'),('Ú','ú'),('Û','û'),('Ü','ü'),
   ('Ý','ý'),('Þ','þ')]

/-- Character-level model of `toLowerCase`. -/
def toLowerCh (c : Char) : Char :=
  (lowerPairs.lookup c).getD c

/-- Canonical (NFD) decomposition table for the precomposed lowercase Latin-1
letters: each maps to its base letter followed by a combining mark in
`U+0300 – U+036F`. -/
def decompPairs : List (Char × List Char) :=
  [('à', ['a', Char.ofNat 0x300]), ('á', ['a', Char.ofNat 0x301]),
   ('â', ['a', Char.ofNat 0x302]), ('ã', ['a', Char.ofNat 0x303]),
   ('ä', ['a', Char.ofNat 0x308]), ('å', ['a', Char.ofNat 0x30A]),
   ('ç', ['c', Char.ofNat 0x327]),
   ('è', ['e', Char.ofNat 0x300]), ('é', ['e', Char.ofNat 0x301]),
   ('ê', ['e', Char.ofNat 0x302]), ('ë', ['e', Char.ofNat 0x308]),
   ('ì', ['i', Char.ofNat 0x300]), ('í', ['i', Char.ofNat 0x301]),
   ('î', ['i', Char.ofNat 0x302]), ('ï', ['i', Char.ofNat 0x308]),
   ('ñ', ['n', Char.ofNat 0x303]),
   ('ò', ['o', Char.ofNat 0x300]), ('ó', ['o', Char.ofNat 0x301]),
   ('ô', ['o', Char.ofNat 0x302]), ('õ', ['o', Char.ofNat 0x303]),
   ('ö', ['o', Char.ofNat 0x308]),
   ('ù', ['u', Char.ofNat 0x300]), ('ú', ['u', Char.ofNat 0x301]),
   ('û', ['u', Char.ofNat 0x302]), ('ü', ['u', Char.ofNat 0x308]),
   ('ý', ['y', Char.ofNat 0x301]), ('ÿ', ['y', Char.ofNat 0x308])]

/-- Character-level model of NFD decomposition. -/
def decomposeCh (c : Char) : List Char :=
  (decompPairs.lookup c).getD [c]

/-- A character is in normal form when lower-casing, decomposition and
mark-stripping all leave it unchanged. -/
def charOkB (c : Char) : Bool :=
  toLowerCh c == c && decomposeCh c == [c] && !isMark c

/-!
Generic machinery for JavaScript `String.replace(/re/g, " ")` calls whose
regular expression is a fixed pattern of character predicates followed by a
greedy character-class run.  `scanF` scans the string left to right: at a
position where the pattern fires it emits a single `' '` and skips the
matched run (`dropWhile skipP` of the remainder), otherwise it keeps the
character.  The `Nat` argument is structural-recursion fuel; `scanRun`
instantiates it with the string length, which is always sufficient.
-/

/-- The first characters of `l` satisfy the respective predicates of `ps`
(`false` when `l` is shorter than `ps`). -/
def startsPred : List (Char → Bool) → Str → Bool
  | [], _ => true
  | _ :: _, [] => false
  | p :: ps, c :: l => p c && startsPred ps l

/-- Some pattern of the specification fires at the head of `l`. -/
def scanHit (spec : List (List (Char → Bool))) (l : Str) : Bool :=
  spec.any fun ps => startsPred ps l

def scanF (spec : List (List (Char → Bool))) (skipP : Char → Bool) :
    Nat → Str → Str
  | 0, l => l
  | _ + 1, [] => []
  | f + 1, c :: r =>
    if scanHit spec (c :: r) then ' ' :: scanF spec skipP f (r.dropWhile skipP)
    else c :: scanF spec skipP f r

def scanRun (spec : List (List (Char → Bool))) (skipP : Char → Bool) (l : Str) : Str :=
  scanF spec skipP l.length l

/-- No pattern occurrence: `ps` fails at every suffix of `s`. -/
def noPred (ps : List (Char → Bool)) (s : Str) : Prop :=
  ∀ t, t <:+ s → startsPred ps t = false

/-!
The text normalizer (`normalizeText` in both source variants).  Each `replace`
of the source pipeline is one stage; the three `replace(/..re../g, " ")`
stages with variable-length matches are `scanRun` instances, the others are
`map`/`filter` stages.  Stage order follows the source exactly.
-/

def lowerStr (s : Str) : Str := s.map toLowerCh

def nfdStr (s : Str) : Str := s.flatMap decomposeCh

def stripMarks (s : Str) : Str := s.filter fun c => !isMark c

def charEq (a : Char) : Char → Bool := fun c => c == a

def notWs : Char → Bool := fun c => !isJsWs c

/-- Patterns of `/https?:\/\/\S+/`: the literal prefix and one non-space
character; the greedy `\S+` run is the scanner's skip class. -/
def urlSpec : List (List (Char → Bool)) :=
  ["http://".toList.map charEq ++ [notWs],
   "https://".toList.map charEq ++ [notWs]]

def urlRemove (s : Str) : Str := scanRun urlSpec notWs s

def atHash : Char → Bool := fun c => c == '@' || c == '#'

/-- Pattern of `/[@#][\p{L}\p{N}_-]+/u`: the sigil and one body character;
the greedy body run is the skip class. -/
def mentionSpec : List (List (Char → Bool)) := [[atHash, isBodyCh]]

def mentionRemove (s : Str) : Str := scanRun mentionSpec isBodyCh s

def emojiToSpace (c : Char) : Char := if isEmojiCh c then ' ' else c

def emojiRemove (s : Str) : Str := s.map emojiToSpace

/-- Characters kept by the alternate variant's `[^\w\sÀ-ſ]` filter. -/
def keepCh2 (c : Char) : Bool := isWordCh c || isJsWs c || isLatinExt c

def punctToSpace (c : Char) : Char := if keepCh2 c then c else ' '

def punctRemove (s : Str) : Str := s.map punctToSpace

/-- Pattern of `/\s+/`: one whitespace character, skipping the greedy run. -/
def wsSpec : List (List (Char → Bool)) := [[isJsWs]]

def collapseWs (s : Str) : Str := scanRun wsSpec isJsWs s

def trimWs (s : Str) : Str :=
  ((s.dropWhile isJsWs).reverse.dropWhile isJsWs).reverse

/-- `normalizeText` of `dom-utils.js`: lower-case, NFD + strip combining
marks, remove URLs, remove mentions/hashtags, remove emoji, collapse
whitespace, trim. -/
def normalizeText (s : Str) : Str :=
  if s.isEmpty then []
  else trimWs (collapseWs (emojiRemove (mentionRemove (urlRemove
    (stripMarks (nfdStr (lowerStr s)))))))

/-- `normalizeText` of the alternate variant (`part_002`), which additionally
replaces `[^\w\sÀ-ſ]` by a space before whitespace collapsing. -/
def normalizeText2 (s : Str) : Str :=
  if s.isEmpty then []
  else trimWs (collapseWs (punctRemove (emojiRemove (mentionRemove (urlRemove
    (stripMarks (nfdStr (lowerStr s))))))))

/-!
Invariants of normalized text.  `normalizeText` output satisfies all of them
(established stage by stage below), and a string satisfying all of them is a
fixed point of every stage, which yields idempotence.
-/

def urlPs1 : List (Char → Bool) := "http://".toList.map charEq ++ [notWs]

def urlPs2 : List (Char → Bool) := "https://".toList.map charEq ++ [notWs]

def menPs : List (Char → Bool) := [atHash, isBodyCh]

def adjPs : List (Char → Bool) := [isJsWs, isJsWs]

/-- Every character is a fixed point of lower-casing and decomposition. -/
def okChars (s : Str) : Prop := ∀ c ∈ s, charOkB c = true

def noEmo (s : Str) : Prop := ∀ c ∈ s, isEmojiCh c = false

def keepOk (s : Str) : Prop := ∀ c ∈ s, keepCh2 c = true

/-- Every whitespace character is a plain space. -/
def wsSpace (s : Str) : Prop := ∀ c ∈ s, isJsWs c = true → c = ' '

/-- The last five stages of the `dom-utils.js` normalizer pipeline. -/
def normCore (s : Str) : Str :=
  trimWs (collapseWs (emojiRemove (mentionRemove (urlRemove
    (stripMarks (nfdStr (lowerStr s)))))))

/-- The stages of the alternate-variant normalizer pipeline. -/
def normCore2 (s : Str) : Str :=
  trimWs (collapseWs (punctRemove (emojiRemove (mentionRemove (urlRemove
    (stripMarks (nfdStr (lowerStr s))))))))

/-- A string is normalized when it is a fixed point of every stage of the
`dom-utils.js` pipeline: all characters case/decomposition-stable, no URL or
mention/hashtag pattern occurrence, no emoji, whitespace collapsed to single
plain spaces, and trimmed. -/
def NormalizedStr (t : Str) : Prop :=
  okChars t ∧ noPred urlPs1 t ∧ noPred urlPs2 t ∧ noPred menPs t ∧ noEmo t ∧
  wsSpace t ∧ noPred adjPs t ∧ trimWs t = t

/-- Normal form for the alternate variant: additionally free of the characters
its punctuation filter removes. -/
def NormalizedStr2 (t : Str) : Prop := NormalizedStr t ∧ keepOk t

/-!
The keyword expander.  `generateWordVariations` is the `dom-utils.js` variant
(`word.endsWith('s') && word.length > 1` guard for the singular form, plural
added for every non-empty word); `generateWordVariations2` is the alternate
variant (`part_002`: no variations below length 2, plural/singular only above
length 2, singular only above length 3).  `generateNormalizedWordSet`
normalizes each keyword, drops empty results and accumulates the variations
into a deduplicated set, modelled as a duplicate-free insertion-ordered list.
-/

def endsInS (w : Str) : Bool := w.getLast? == some 's'

def generateWordVariations (w : Str) : List Str :=
  if w.isEmpty then []
  else [w] ++ (if !endsInS w then [w ++ ['s']] else [])
       ++ (if endsInS w && decide (1 < w.length) then [w.dropLast] else [])

def generateWordVariations2 (w : Str) : List Str :=
  if w.length < 2 then [w]
  else [w] ++ (if decide (2 < w.length) && !endsInS w then [w ++ ['s']] else [])
       ++ (if decide (2 < w.length) && endsInS w && decide (3 < w.length) then
             [w.dropLast] else [])

def addVariations (acc : List Str) (vs : List Str) : List Str :=
  vs.foldl (fun a v => if a.contains v then a else a ++ [v]) acc

def generateNormalizedWordSet (words : List Str) : List Str :=
  words.foldl (fun acc w =>
    let n := normalizeText w
    if n.isEmpty then acc else addVariations acc (generateWordVariations n)) []

def generateNormalizedWordSet2 (words : List Str) : List Str :=
  words.foldl (fun acc w =>
    let n := normalizeText2 w
    if n.isEmpty then acc else addVariations acc (generateWordVariations2 n)) []

/-!
The matcher.  `matchesAny` is the `dom-utils.js` variant: for each keyword it
builds the regex ``\b<escaped keyword>\b`` with the `i` flag and tests it
against the lower-cased text.  The escape makes the keyword a literal;
JavaScript `\b` asserts that exactly one side of the position is a `\w`
character (string edges count as non-word), which `bAt` models.  The `i` flag
is modelled by lower-casing both sides of the comparison.
-/

def wordAt (l : Str) (i : Nat) : Bool :=
  match l[i]? with
  | some c => isWordCh c
  | none => false

/-- JavaScript `\b` at position `i` of `l`. -/
def bAt (l : Str) (i : Nat) : Bool :=
  (match i with
   | 0 => false
   | j + 1 => wordAt l j) != wordAt l i

/-- `new RegExp("\\b" + escaped(w) + "\\b", "i").test(l)`. -/
def regexTestWord (w l : Str) : Bool :=
  (List.range (l.length + 1)).any fun i =>
    (w.map toLowerCh).isPrefixOf (l.drop i) && bAt l i && bAt l (i + w.length)

/-- `matchesAny` of `dom-utils.js`: lower-case the text, then test each
non-empty keyword's whole-word regex, short-circuiting on the first match. -/
def matchesAny (text : Str) (wordSet : List Str) : Bool :=
  if text.isEmpty || wordSet.isEmpty then false
  else wordSet.any fun w => !w.isEmpty && regexTestWord w (text.map toLowerCh)

/-- The maximal `\w`-runs ("tokens") of a string, accumulator-based. -/
def tokensAux : Str → Str → List Str
  | acc, [] => if acc.isEmpty then [] else [acc.reverse]
  | acc, c :: r =>
    if isWordCh c then tokensAux (c :: acc) r
    else if acc.isEmpty then tokensAux [] r
    else acc.reverse :: tokensAux [] r

def wordTokens (l : Str) : List Str := tokensAux [] l

/-!
The alternate-variant matcher (`part_002`): split the lower-cased text on
whitespace runs, strip each token of characters outside `\w` and
`U+00C0 – U+017F`, and compare for case-insensitive equality with each
keyword.  `splitWsF` models `String.split(/\s+/)` (fuel-based, as for the
scanners).
-/

def splitWsF : Nat → Str → Str → List Str
  | 0, cur, _ => [cur.reverse]
  | _ + 1, cur, [] => [cur.reverse]
  | f + 1, cur, c :: r =>
    if isJsWs c then cur.reverse :: splitWsF f [] (r.dropWhile isJsWs)
    else splitWsF f (c :: cur) r

def splitWs (l : Str) : List Str := splitWsF l.length [] l

/-- `replace(/[^\wÀ-ſ]/g, '')`: keep only word and Latin letters. -/
def cleanWordCh (c : Char) : Bool := isWordCh c || isLatinExt c

/-- `matchesAny` of the alternate variant (`part_002`). -/
def matchesAny2 (text : Str) (wordSet : List Str) : Bool :=
  if text.isEmpty || wordSet.isEmpty then false
  else
    let textWords := splitWs (text.map toLowerCh)
    wordSet.any fun w => !w.isEmpty &&
      textWords.any fun tw =>
        (tw.filter cleanWordCh).map toLowerCh == w.map toLowerCh

/-- The complete tokens the alternate matcher compares keywords against:
each whitespace-delimited token of the text, cleaned of characters outside
`\w` and `U+00C0 – U+017F` and lower-cased. -/
def cleanedTokens (l : Str) : List Str :=
  (splitWs l).map fun tw => (tw.filter cleanWordCh).map toLowerCh

/-!
The visibility policy, configuration loading, and the per-item processor.
`FilterConfig` mirrors the source `currentConfig` object; the match set
(`normalizedWordSet`) is a separate engine value, as in the source.  `Post`
models the per-item state the engine reads and writes through the view
collaborator: the `data-lkw-processed`/`data-lkw-expanded` markers, the
hidden state and the extractable text.  `EngineState` holds the current
configuration, match set, session hidden counter and the outbound
`count` notifications.
-/

structure FilterConfig where
  mode : String
  paused : Bool
  words : List Str
deriving DecidableEq

/-- `shouldHidePost` (identical in both source variants): never hide when
paused or when the match set is empty; in `blacklist` mode hide on a match,
in `whitelist` mode hide on a non-match, and hide nothing for any other mode
string. -/
def shouldHidePost (cfg : FilterConfig) (wordSet : List Str) (hasMatch : Bool) : Bool :=
  if cfg.paused || wordSet.isEmpty then false
  else if cfg.mode == "blacklist" then hasMatch == true
  else if cfg.mode == "whitelist" then hasMatch == false
  else false

/-- The safe default configuration installed on a storage read fault. -/
def fallbackConfig : FilterConfig := ⟨"blacklist", false, []⟩

/-- `loadConfig` (alternate variant `part_003`): on success install the
stored configuration and rebuild the match set from its keywords; on any
storage fault fall back to `fallbackConfig` with an empty match set. -/
def loadConfig : Except String FilterConfig → FilterConfig × List Str
  | Except.ok cfg => (cfg, generateNormalizedWordSet cfg.words)
  | Except.error _ => (fallbackConfig, [])

structure Post where
  processed : Bool
  expanded : Bool
  hidden : Bool
  text : Str
deriving DecidableEq

structure EngineState where
  config : FilterConfig
  wordSet : List Str
  hiddenCount : Nat
  sentCounts : List Nat
deriving DecidableEq

/-- Synchronous prefix of `processPost`, up to its first `await`: the
processed-marker check and the immediate marking.  Returns the updated post
and whether this invocation proceeds to classification. -/
def processPhase1 (p : Post) : Post × Bool :=
  if p.processed then (p, false) else ({ p with processed := true }, true)

/-- Remainder of `processPost`: extract and normalize the text (the
best-effort "see more" expansion only affects which text is visible and is
abstracted into `p.text`), classify, apply visibility, bump the session
counter and emit a `count` notification when hiding. -/
def processPhase2 (p : Post) (st : EngineState) : Post × EngineState :=
  let nt := normalizeText p.text
  if nt.isEmpty then (p, st)
  else
    let hasMatch := matchesAny nt st.wordSet
    if shouldHidePost st.config st.wordSet hasMatch then
      ({ p with hidden := true },
       { st with hiddenCount := st.hiddenCount + 1,
                 sentCounts := st.sentCounts ++ [st.hiddenCount + 1] })
    else
      ({ p with hidden := false }, st)

/-- A complete `processPost` invocation run to completion. -/
def processPostRun (p : Post) (st : EngineState) : Post × EngineState :=
  if p.processed then (p, st)
  else processPhase2 { p with processed := true } st

/-- Atomic steps of two concurrent `processPost` invocations A and B on the
same post: each invocation is its synchronous phase 1 followed (after its
`await`) by phase 2. -/
inductive StepTag where
  | p1A
  | p2A
  | p1B
  | p2B
deriving DecidableEq

structure TwoState where
  post : Post
  st : EngineState
  goA : Bool
  goB : Bool
deriving DecidableEq

def runStep (s : TwoState) : StepTag → TwoState
  | StepTag.p1A =>
    { s with post := (processPhase1 s.post).1, goA := (processPhase1 s.post).2 }
  | StepTag.p2A =>
    if s.goA then
      { s with post := (processPhase2 s.post s.st).1,
               st := (processPhase2 s.post s.st).2 }
    else s
  | StepTag.p1B =>
    { s with post := (processPhase1 s.post).1, goB := (processPhase1 s.post).2 }
  | StepTag.p2B =>
    if s.goB then
      { s with post := (processPhase2 s.post s.st).1,
               st := (processPhase2 s.post s.st).2 }
    else s

def runSched (init : TwoState) (l : List StepTag) : TwoState :=
  l.foldl runStep init

/-- All interleavings of the two invocations that respect each invocation's
program order (phase 1 before phase 2). -/
def twoSchedules : List (List StepTag) :=
  [[StepTag.p1A, StepTag.p2A, StepTag.p1B, StepTag.p2B],
   [StepTag.p1A, StepTag.p1B, StepTag.p2A, StepTag.p2B],
   [StepTag.p1A, StepTag.p1B, StepTag.p2B, StepTag.p2A],
   [StepTag.p1B, StepTag.p1A, StepTag.p2A, StepTag.p2B],
   [StepTag.p1B, StepTag.p1A, StepTag.p2B, StepTag.p2A],
   [StepTag.p1B, StepTag.p2B, StepTag.p1A, StepTag.p2A]]

/-- One step of the full-sweep fold: process a post against the current
engine state, accumulating the updated posts. -/
def processStep (acc : List Post × EngineState) (p : Post) : List Post × EngineState :=
  ((processPostRun p acc.2).1 :: acc.1, (processPostRun p acc.2).2)

/-- `processAllExistingPosts`: process every post in order. -/
def processAllPosts (posts : List Post) (st : EngineState) : List Post × EngineState :=
  posts.foldl processStep ([], st)

/-- `resetProcessingMarkers`: clear the processed and expanded markers on
every post. -/
def resetPostsMarkers (posts : List Post) : List Post :=
  posts.map fun p => { p with processed := false, expanded := false }

/-- `reprocessAllPosts`: clear all markers, reset the session hidden counter
to zero, then process every post again. -/
def reprocessAllPosts (posts : List Post) (st : EngineState) : List Post × EngineState :=
  processAllPosts (resetPostsMarkers posts) { st with hiddenCount := 0 }

/-- The `urlObserver` handler on navigation to a feed URL: reset the session
counter, then (after a delay) reprocess all posts. -/
def urlChangeToFeed (posts : List Post) (st : EngineState) : List Post × EngineState :=
  reprocessAllPosts posts { st with hiddenCount := 0 }

/-!
Highlighting order.  `highlightKeywords` (`dom-utils.js`) sorts the variants
by descending length before applying them (`sort((a, b) => b.length -
a.length)`); the alternate variant's `highlightFoundKeywords` iterates the
match set with `forEach`, i.e. in set insertion order, with no sort.
-/

def highlightOrder (ws : List Str) : List Str :=
  ws.mergeSort fun a b => decide (b.length ≤ a.length)

def highlightOrder2 (ws : List Str) : List Str := ws

/-- The applied order is longest-first: adjacent lengths are non-increasing. -/
def lenSortedDesc : List Str → Bool
  | [] => true
  | [_] => true
  | a :: b :: r => decide (b.length ≤ a.length) && lenSortedDesc (b :: r)

theorem lookup_mem {β : Type} {ps : List (Char × β)} {a : Char} {b : β}
    (h : ps.lookup a = some b) : (a, b) ∈ ps := by
  induction ps with
  | nil => simp [List.lookup] at h
  | cons p ps ih =>
    rw [List.lookup] at h
    by_cases hk : a == p.1
    · simp [hk] at h
      have ha : a = p.1 := eq_of_beq hk
      have hp : p = (a, b) := by
        cases p
        simp only at ha h
        simp [ha, h]
      rw [hp]
      exact List.mem_cons_self _ _
    · simp [hk] at h
      exact List.mem_cons_of_mem _ (ih h)

theorem toLowerCh_idem (c : Char) : toLowerCh (toLowerCh c) = toLowerCh c := by
  unfold toLowerCh
  cases h : lowerPairs.lookup c with
  | none => simp [h]
  | some l =>
    simp only [Option.getD_some]
    have hmem : (c, l) ∈ lowerPairs := lookup_mem h
    have hall : ∀ p ∈ lowerPairs, (lowerPairs.lookup p.2).getD p.2 = p.2 := by decide
    exact hall (c, l) hmem

theorem space_charOk : charOkB ' ' = true := by decide

theorem toLowerCh_space : toLowerCh ' ' = ' ' := by decide

theorem dropWhile_len_le (p : Char → Bool) (l : Str) :
    (l.dropWhile p).length ≤ l.length :=
  (List.dropWhile_sublist p).length_le

theorem noPred_suffix {ps : List (Char → Bool)} {s t : Str}
    (hst : t <:+ s) (h : noPred ps s) : noPred ps t :=
  fun u hu => h u (hu.trans hst)

theorem scanF_congr (spec : List (List (Char → Bool))) (skipP : Char → Bool) :
    ∀ f g l, l.length ≤ f → l.length ≤ g →
      scanF spec skipP f l = scanF spec skipP g l := by
  intro f
  induction f with
  | zero =>
    intro g l hf _
    have : l = [] := List.length_eq_zero.mp (Nat.le_zero.mp hf)
    subst this
    cases g <;> rfl
  | succ f ih =>
    intro g l hf hg
    cases l with
    | nil => cases g <;> rfl
    | cons c r =>
      cases g with
      | zero => simp at hg
      | succ g =>
        simp only [scanF]
        have hr : r.length ≤ f := by simpa using hf
        have hrg : r.length ≤ g := by simpa using hg
        have hdw : (r.dropWhile skipP).length ≤ f :=
          le_trans (dropWhile_len_le skipP r) hr
        have hdwg : (r.dropWhile skipP).length ≤ g :=
          le_trans (dropWhile_len_le skipP r) hrg
        rw [ih g _ hdw hdwg, ih g r hr hrg]

theorem scanRun_nil (spec : List (List (Char → Bool))) (skipP : Char → Bool) :
    scanRun spec skipP [] = [] := rfl

theorem if_bool_true {α : Sort u} {b : Bool} (h : b = true) (x y : α) :
    (if b = true then x else y) = x := if_pos h

theorem if_bool_false {α : Sort u} {b : Bool} (h : b = false) (x y : α) :
    (if b = true then x else y) = y := if_neg (by simp [h])

theorem scanRun_cons_hit {spec : List (List (Char → Bool))} {skipP : Char → Bool}
    {c : Char} {r : Str} (h : scanHit spec (c :: r) = true) :
    scanRun spec skipP (c :: r) = ' ' :: scanRun spec skipP (r.dropWhile skipP) := by
  unfold scanRun
  simp only [List.length_cons, scanF]
  rw [if_bool_true h]
  rw [scanF_congr spec skipP r.length (r.dropWhile skipP).length _
        (dropWhile_len_le skipP r) (le_refl _)]

theorem scanRun_cons_miss {spec : List (List (Char → Bool))} {skipP : Char → Bool}
    {c : Char} {r : Str} (h : scanHit spec (c :: r) = false) :
    scanRun spec skipP (c :: r) = c :: scanRun spec skipP r := by
  unfold scanRun
  simp only [List.length_cons, scanF]
  rw [if_bool_false h]

theorem scanF_mem {spec : List (List (Char → Bool))} {skipP : Char → Bool} :
    ∀ f l c, l.length ≤ f → c ∈ scanF spec skipP f l → c ∈ l ∨ c = ' ' := by
  intro f
  induction f with
  | zero => intro l c _ hc; exact Or.inl hc
  | succ f ih =>
    intro l c hf hc
    cases l with
    | nil => simp [scanF] at hc
    | cons a r =>
      have hr : r.length ≤ f := by simpa using hf
      simp only [scanF] at hc
      by_cases hh : scanHit spec (a :: r) = true
      · rw [if_bool_true hh] at hc
        rcases List.mem_cons.mp hc with h1 | h2
        · exact Or.inr h1
        · rcases ih _ c (le_trans (dropWhile_len_le skipP r) hr) h2 with h3 | h3
          · exact Or.inl (List.mem_cons_of_mem _ ((List.dropWhile_sublist skipP).subset h3))
          · exact Or.inr h3
      · rw [if_bool_false (eq_false_of_ne_true hh)] at hc
        rcases List.mem_cons.mp hc with h1 | h2
        · exact Or.inl (h1 ▸ List.mem_cons_self _ _)
        · rcases ih r c hr h2 with h3 | h3
          · exact Or.inl (List.mem_cons_of_mem _ h3)
          · exact Or.inr h3

theorem scanF_trace {spec : List (List (Char → Bool))} {skipP : Char → Bool} :
    ∀ f (ps : List (Char → Bool)) l, (∀ p ∈ ps, p ' ' = false) → l.length ≤ f →
      startsPred ps (scanF spec skipP f l) = true → startsPred ps l = true := by
  intro f
  induction f with
  | zero => intro ps l _ _ h; exact h
  | succ f ih =>
    intro ps l hps hf h
    cases l with
    | nil =>
      simp only [scanF] at h
      cases ps with
      | nil => rfl
      | cons p ps => simp [startsPred] at h
    | cons c r =>
      have hr : r.length ≤ f := by simpa using hf
      simp only [scanF] at h
      by_cases hh : scanHit spec (c :: r) = true
      · rw [if_bool_true hh] at h
        cases ps with
        | nil => rfl
        | cons p ps =>
          simp only [startsPred, Bool.and_eq_true] at h
          rw [hps p (List.mem_cons_self _ _)] at h
          exact absurd h.1 (by simp)
      · rw [if_bool_false (eq_false_of_ne_true hh)] at h
        cases ps with
        | nil => rfl
        | cons p ps =>
          simp only [startsPred, Bool.and_eq_true] at h ⊢
          exact ⟨h.1, ih ps r (fun q hq => hps q (List.mem_cons_of_mem _ hq)) hr h.2⟩

theorem scanF_estab {spec : List (List (Char → Bool))} {skipP : Char → Bool}
    (hspec : ∀ ps ∈ spec, (∀ p ∈ ps, p ' ' = false) ∧ ps ≠ []) :
    ∀ f l, l.length ≤ f → ∀ ps ∈ spec, noPred ps (scanF spec skipP f l) := by
  intro f
  induction f with
  | zero =>
    intro l hf ps hmem t ht
    have : l = [] := List.length_eq_zero.mp (Nat.le_zero.mp hf)
    subst this
    have : t = [] := List.suffix_nil.mp ht
    subst this
    rcases hspec ps hmem with ⟨_, hne⟩
    cases ps with
    | nil => exact absurd rfl hne
    | cons p ps => rfl
  | succ f ih =>
    intro l hf ps hmem t ht
    cases l with
    | nil =>
      simp only [scanF] at ht
      have : t = [] := List.suffix_nil.mp ht
      subst this
      rcases hspec ps hmem with ⟨_, hne⟩
      cases ps with
      | nil => exact absurd rfl hne
      | cons p ps => rfl
    | cons c r =>
      have hr : r.length ≤ f := by simpa using hf
      simp only [scanF] at ht
      rcases hspec ps hmem with ⟨hps, hne⟩
      by_cases hh : scanHit spec (c :: r) = true
      · rw [if_bool_true hh] at ht
        rcases List.suffix_cons_iff.mp ht with h1 | h2
        · subst h1
          cases ps with
          | nil => exact absurd rfl hne
          | cons p ps =>
            simp only [startsPred]
            rw [hps p (List.mem_cons_self _ _)]
            simp
        · exact ih _ (le_trans (dropWhile_len_le skipP r) hr) ps hmem t h2
      · rw [if_bool_false (eq_false_of_ne_true hh)] at ht
        rcases List.suffix_cons_iff.mp ht with h1 | h2
        · subst h1
          cases ps with
          | nil => exact absurd rfl hne
          | cons p ps =>
            by_contra hc
            have hc' : startsPred (p :: ps) (c :: scanF spec skipP f r) = true := by
              cases h : startsPred (p :: ps) (c :: scanF spec skipP f r)
              · exact absurd h hc
              · rfl
            simp only [startsPred, Bool.and_eq_true] at hc'
            have h2 : startsPred ps r = true :=
              scanF_trace f ps r (fun q hq => hps q (List.mem_cons_of_mem _ hq)) hr hc'.2
            have h3 : startsPred (p :: ps) (c :: r) = true := by
              simp [startsPred, hc'.1, h2]
            have h4 : scanHit spec (c :: r) = true :=
              List.any_eq_true.mpr ⟨p :: ps, hmem, h3⟩
            exact hh h4
        · exact ih r hr ps hmem t h2

theorem scanF_preserve {spec : List (List (Char → Bool))} {skipP : Char → Bool}
    {ps : List (Char → Bool)} (hps : ∀ p ∈ ps, p ' ' = false) (hne : ps ≠ []) :
    ∀ f l, l.length ≤ f → noPred ps l → noPred ps (scanF spec skipP f l) := by
  intro f
  induction f with
  | zero =>
    intro l _ hl
    exact hl
  | succ f ih =>
    intro l hf hl t ht
    cases l with
    | nil =>
      simp only [scanF] at ht
      have : t = [] := List.suffix_nil.mp ht
      subst this
      cases ps with
      | nil => exact absurd rfl hne
      | cons p ps => rfl
    | cons c r =>
      have hr : r.length ≤ f := by simpa using hf
      simp only [scanF] at ht
      by_cases hh : scanHit spec (c :: r) = true
      · rw [if_bool_true hh] at ht
        rcases List.suffix_cons_iff.mp ht with h1 | h2
        · subst h1
          cases ps with
          | nil => exact absurd rfl hne
          | cons p ps =>
            simp only [startsPred]
            rw [hps p (List.mem_cons_self _ _)]
            simp
        · have hdw : noPred ps (r.dropWhile skipP) :=
            noPred_suffix ((List.dropWhile_suffix skipP).trans (List.suffix_cons c r)) hl
          exact ih _ (le_trans (dropWhile_len_le skipP r) hr) hdw t h2
      · rw [if_bool_false (eq_false_of_ne_true hh)] at ht
        rcases List.suffix_cons_iff.mp ht with h1 | h2
        · subst h1
          cases ps with
          | nil => exact absurd rfl hne
          | cons p ps =>
            by_contra hc
            have hc' : startsPred (p :: ps) (c :: scanF spec skipP f r) = true := by
              cases h : startsPred (p :: ps) (c :: scanF spec skipP f r)
              · exact absurd h hc
              · rfl
            simp only [startsPred, Bool.and_eq_true] at hc'
            have h2 : startsPred ps r = true :=
              scanF_trace f ps r (fun q hq => hps q (List.mem_cons_of_mem _ hq)) hr hc'.2
            have h3 : startsPred (p :: ps) (c :: r) = true := by
              simp [startsPred, hc'.1, h2]
            have h4 := hl (c :: r) (List.suffix_refl _)
            rw [h3] at h4
            exact absurd h4 (by simp)
        · exact ih r hr (noPred_suffix (List.suffix_cons c r) hl) t h2

theorem scanF_fix {spec : List (List (Char → Bool))} {skipP : Char → Bool} :
    ∀ f l, l.length ≤ f → (∀ ps ∈ spec, noPred ps l) → scanF spec skipP f l = l := by
  intro f
  induction f with
  | zero =>
    intro l _ _
    rfl
  | succ f ih =>
    intro l hf hl
    cases l with
    | nil => rfl
    | cons c r =>
      have hr : r.length ≤ f := by simpa using hf
      have hh : scanHit spec (c :: r) = false := by
        cases h : scanHit spec (c :: r)
        · rfl
        · rcases List.any_eq_true.mp h with ⟨ps, hmem, hps⟩
          have := hl ps hmem (c :: r) (List.suffix_refl _)
          rw [hps] at this
          exact absurd this (by simp)
      simp only [scanF]
      rw [if_bool_false hh]
      rw [ih r hr fun ps hmem => noPred_suffix (List.suffix_cons c r) (hl ps hmem)]

theorem scanF_head {spec : List (List (Char → Bool))} {skipP : Char → Bool}
    {f : Nat} {l : Str} (hh : scanHit spec l = false) :
    (scanF spec skipP f l).head? = l.head? := by
  cases f with
  | zero => rfl
  | succ f =>
    cases l with
    | nil => rfl
    | cons c r =>
      simp only [scanF]
      rw [if_bool_false hh]
      rfl

theorem prefix_head {u v : Str} (h : u <+: v) (hne : u ≠ []) :
    u.head? = v.head? := by
  rcases h with ⟨t, rfl⟩
  cases u with
  | nil => exact absurd rfl hne
  | cons c r => rfl

theorem startsPred_extend :
    ∀ (ps : List (Char → Bool)) (t u : Str), t <+: u →
      startsPred ps t = true → startsPred ps u = true := by
  intro ps
  induction ps with
  | nil => intro t u _ _; rfl
  | cons p ps ih =>
    intro t u hp h
    cases t with
    | nil => simp [startsPred] at h
    | cons c t' =>
      rcases hp with ⟨x, rfl⟩
      simp only [startsPred, Bool.and_eq_true] at h ⊢
      exact ⟨h.1, ih t' (t' ++ x) ⟨x, rfl⟩ h.2⟩

theorem noPred_of_within {ps : List (Char → Bool)} {s t : Str}
    (hinf : t <:+: s) (h : noPred ps s) : noPred ps t := by
  intro t' ht'
  rcases hinf with ⟨a, b, rfl⟩
  rcases ht' with ⟨x, rfl⟩
  have hsuf : t' ++ b <:+ a ++ (x ++ t') ++ b := ⟨a ++ x, by simp⟩
  have hfalse := h (t' ++ b) hsuf
  cases hsp : startsPred ps t' with
  | false => rfl
  | true =>
    have := startsPred_extend ps t' (t' ++ b) ⟨b, rfl⟩ hsp
    rw [this] at hfalse
    exact absurd hfalse (by simp)

theorem suffix_drop {s t : Str} (h : t <:+ s) : ∃ n, s.drop n = t := by
  rcases h with ⟨x, rfl⟩
  exact ⟨x.length, List.drop_left x t⟩

theorem map_space_trace {g : Char → Char} (hg : ∀ c, g c = c ∨ g c = ' ') :
    ∀ (ps : List (Char → Bool)) l, (∀ p ∈ ps, p ' ' = false) →
      startsPred ps (l.map g) = true → startsPred ps l = true := by
  intro ps
  induction ps with
  | nil => intro l _ _; rfl
  | cons p ps ih =>
    intro l hps h
    cases l with
    | nil => simp [startsPred] at h
    | cons c r =>
      simp only [List.map_cons, startsPred, Bool.and_eq_true] at h ⊢
      have hc : g c = c := by
        rcases hg c with h1 | h1
        · exact h1
        · rw [h1] at h
          rw [hps p (List.mem_cons_self _ _)] at h
          exact absurd h.1 (by simp)
      rw [hc] at h
      exact ⟨h.1, ih r (fun q hq => hps q (List.mem_cons_of_mem _ hq)) h.2⟩

theorem map_space_preserve {g : Char → Char} (hg : ∀ c, g c = c ∨ g c = ' ')
    {ps : List (Char → Bool)} (hps : ∀ p ∈ ps, p ' ' = false) {l : Str}
    (h : noPred ps l) : noPred ps (l.map g) := by
  intro t ht
  rcases suffix_drop ht with ⟨n, hn⟩
  rw [← hn, ← List.map_drop]
  cases hsp : startsPred ps ((l.drop n).map g) with
  | false => rfl
  | true =>
    have h2 := map_space_trace hg ps (l.drop n) hps hsp
    have h3 := h (l.drop n) (List.drop_suffix n l)
    rw [h2] at h3
    exact absurd h3 (by simp)

theorem dropWhile_head_false {p : Char → Bool} :
    ∀ {l : Str} {c : Char}, (l.dropWhile p).head? = some c → p c = false := by
  intro l
  induction l with
  | nil => intro c h; simp [List.dropWhile] at h
  | cons a r ih =>
    intro c h
    rw [List.dropWhile] at h
    cases hp : p a with
    | true =>
      rw [hp] at h
      exact ih h
    | false =>
      rw [hp] at h
      simp only [List.head?_cons, Option.some.injEq] at h
      subst h
      exact hp

theorem dropWhile_eq_self_of_head {p : Char → Bool} {l : Str}
    (h : ∀ c, l.head? = some c → p c = false) : l.dropWhile p = l := by
  cases l with
  | nil => rfl
  | cons a r =>
    rw [List.dropWhile]
    rw [h a rfl]

theorem trimWs_within (s : Str) : trimWs s <:+: s := by
  unfold trimWs
  have h1 : (s.dropWhile isJsWs) <:+ s := List.dropWhile_suffix isJsWs
  have h2 : ((s.dropWhile isJsWs).reverse.dropWhile isJsWs) <:+
      (s.dropWhile isJsWs).reverse := List.dropWhile_suffix isJsWs
  have h3 : ((s.dropWhile isJsWs).reverse.dropWhile isJsWs).reverse <+:
      (s.dropWhile isJsWs) := by
    rw [← List.reverse_suffix]
    simpa using h2
  exact (h3.isInfix).trans h1.isInfix

theorem trimWs_idem (s : Str) : trimWs (trimWs s) = trimWs s := by
  have hv : ∀ c, (s.dropWhile isJsWs).head? = some c → isJsWs c = false :=
    fun c h => dropWhile_head_false h
  have hpre : ((s.dropWhile isJsWs).reverse.dropWhile isJsWs).reverse <+:
      (s.dropWhile isJsWs) := by
    rw [← List.reverse_suffix]
    simpa using (List.dropWhile_suffix isJsWs :
      ((s.dropWhile isJsWs).reverse.dropWhile isJsWs) <:+ (s.dropWhile isJsWs).reverse)
  unfold trimWs
  set w := (s.dropWhile isJsWs).reverse.dropWhile isJsWs with hw
  have step1 : w.reverse.dropWhile isJsWs = w.reverse := by
    apply dropWhile_eq_self_of_head
    intro c hc
    by_cases hne : w.reverse = []
    · rw [hne] at hc; simp at hc
    · rw [prefix_head hpre hne] at hc
      exact hv c hc
  rw [step1, List.reverse_reverse]
  have step2 : w.dropWhile isJsWs = w := by
    apply dropWhile_eq_self_of_head
    intro c hc
    exact dropWhile_head_false (hw ▸ hc)
  rw [step2]

theorem charOk_lower {c : Char} (h : charOkB c = true) : toLowerCh c = c := by
  simp only [charOkB, Bool.and_eq_true, beq_iff_eq] at h
  exact h.1.1

theorem charOk_decomp {c : Char} (h : charOkB c = true) : decomposeCh c = [c] := by
  simp only [charOkB, Bool.and_eq_true, beq_iff_eq] at h
  exact h.1.2

theorem charOk_mark {c : Char} (h : charOkB c = true) : isMark c = false := by
  simp only [charOkB, Bool.and_eq_true, beq_iff_eq, Bool.not_eq_true'] at h
  exact h.2

theorem map_id_of_mem {g : Char → Char} :
    ∀ {s : Str}, (∀ c ∈ s, g c = c) → s.map g = s := by
  intro s
  induction s with
  | nil => intro _; rfl
  | cons c r ih =>
    intro h
    simp only [List.map_cons]
    rw [h c (List.mem_cons_self _ _), ih fun d hd => h d (List.mem_cons_of_mem _ hd)]

theorem lowerStr_fix {s : Str} (h : okChars s) : lowerStr s = s :=
  map_id_of_mem fun c hc => charOk_lower (h c hc)

theorem nfdStr_fix {s : Str} (h : okChars s) : nfdStr s = s := by
  induction s with
  | nil => rfl
  | cons c r ih =>
    unfold nfdStr at ih ⊢
    rw [List.flatMap_cons, charOk_decomp (h c (List.mem_cons_self _ _)),
        ih fun d hd => h d (List.mem_cons_of_mem _ hd)]
    rfl

theorem stripMarks_fix {s : Str} (h : okChars s) : stripMarks s = s :=
  List.filter_eq_self.mpr fun c hc => by
    rw [charOk_mark (h c hc)]
    rfl

theorem urlRemove_fix {s : Str} (h1 : noPred urlPs1 s) (h2 : noPred urlPs2 s) :
    urlRemove s = s := by
  apply scanF_fix s.length s (le_refl _)
  intro ps hmem
  rcases List.mem_cons.mp hmem with h | hmem2
  · subst h; exact h1
  · rcases List.mem_cons.mp hmem2 with h | h3
    · subst h; exact h2
    · simp at h3

theorem mentionRemove_fix {s : Str} (h : noPred menPs s) : mentionRemove s = s := by
  apply scanF_fix s.length s (le_refl _)
  intro ps hmem
  rcases List.mem_cons.mp hmem with hm | hm
  · subst hm; exact h
  · simp at hm

theorem emojiRemove_fix {s : Str} (h : noEmo s) : emojiRemove s = s :=
  map_id_of_mem fun c hc => by
    unfold emojiToSpace
    rw [h c hc]
    rfl

theorem punctRemove_fix {s : Str} (h : keepOk s) : punctRemove s = s :=
  map_id_of_mem fun c hc => by
    unfold punctToSpace
    rw [h c hc]
    rfl

theorem scanHit_ws (c : Char) (r : Str) :
    scanHit wsSpec (c :: r) = isJsWs c := by
  simp [scanHit, wsSpec, startsPred]

theorem collapseWs_fix {s : Str} (hsp : wsSpace s) (hadj : noPred adjPs s) :
    collapseWs s = s := by
  induction s with
  | nil => rfl
  | cons c r ih =>
    have htl : collapseWs r = r :=
      ih (fun d hd => hsp d (List.mem_cons_of_mem _ hd))
         (noPred_suffix (List.suffix_cons c r) hadj)
    unfold collapseWs at htl ⊢
    cases hws : isJsWs c with
    | false =>
      have hmiss : scanHit wsSpec (c :: r) = false := by rw [scanHit_ws, hws]
      rw [scanRun_cons_miss hmiss, htl]
    | true =>
      have hc : c = ' ' := hsp c (List.mem_cons_self _ _) hws
      have hdr : r.dropWhile isJsWs = r := by
        apply dropWhile_eq_self_of_head
        intro d hd
        have hpair := hadj (c :: r) (List.suffix_refl _)
        cases r with
        | nil => simp at hd
        | cons e r' =>
          simp only [List.head?_cons, Option.some.injEq] at hd
          subst hd
          simp only [adjPs, startsPred, hws, Bool.true_and] at hpair
          simpa using hpair
      have hhit : scanHit wsSpec (c :: r) = true := by rw [scanHit_ws, hws]
      rw [scanRun_cons_hit hhit, hdr, htl, hc]

theorem urlPs1_space : ∀ p ∈ urlPs1, p ' ' = false := by decide

theorem urlPs2_space : ∀ p ∈ urlPs2, p ' ' = false := by decide

theorem menPs_space : ∀ p ∈ menPs, p ' ' = false := by decide

theorem urlPs1_ne : urlPs1 ≠ [] := by
  intro h
  have hl : urlPs1.length = 8 := rfl
  rw [h] at hl
  simp at hl

theorem urlPs2_ne : urlPs2 ≠ [] := by
  intro h
  have hl : urlPs2.length = 9 := rfl
  rw [h] at hl
  simp at hl

theorem menPs_ne : menPs ≠ [] := by
  intro h
  have hl : menPs.length = 2 := rfl
  rw [h] at hl
  simp at hl

theorem urlSpec_cond : ∀ ps ∈ urlSpec, (∀ p ∈ ps, p ' ' = false) ∧ ps ≠ [] := by
  intro ps hmem
  rcases List.mem_cons.mp hmem with h | hmem2
  · subst h; exact ⟨urlPs1_space, urlPs1_ne⟩
  · rcases List.mem_cons.mp hmem2 with h | h3
    · subst h; exact ⟨urlPs2_space, urlPs2_ne⟩
    · simp at h3

theorem mentionSpec_cond : ∀ ps ∈ mentionSpec, (∀ p ∈ ps, p ' ' = false) ∧ ps ≠ [] := by
  intro ps hmem
  rcases List.mem_cons.mp hmem with h | h
  · subst h; exact ⟨menPs_space, menPs_ne⟩
  · simp at h

theorem charNorm_ok {c d : Char} (hd : d ∈ decomposeCh (toLowerCh c))
    (hm : isMark d = false) : charOkB d = true := by
  cases h : decompPairs.lookup (toLowerCh c) with
  | some l =>
    have hmem : (toLowerCh c, l) ∈ decompPairs := lookup_mem h
    have hall : ∀ p ∈ decompPairs, ∀ e ∈ p.2, isMark e = true ∨ charOkB e = true := by
      decide
    rw [decomposeCh, h, Option.getD_some] at hd
    rcases hall _ hmem d hd with h1 | h1
    · rw [h1] at hm; exact absurd hm (by simp)
    · exact h1
  | none =>
    rw [decomposeCh, h, Option.getD_none] at hd
    have hde : d = toLowerCh c := by simpa using hd
    subst hde
    have h1 : toLowerCh (toLowerCh c) = toLowerCh c := toLowerCh_idem c
    have h2 : decomposeCh (toLowerCh c) = [toLowerCh c] := by
      rw [decomposeCh, h, Option.getD_none]
    simp [charOkB, h1, h2, hm]

theorem step1_okChars (s : Str) : okChars (stripMarks (nfdStr (lowerStr s))) := by
  intro c hc
  rw [stripMarks, List.mem_filter] at hc
  rcases hc with ⟨hc1, hc2⟩
  rw [nfdStr, List.mem_flatMap] at hc1
  rcases hc1 with ⟨a, ha, hca⟩
  rw [lowerStr, List.mem_map] at ha
  rcases ha with ⟨b, _, rfl⟩
  exact charNorm_ok hca (by simpa using hc2)

theorem charProp_scan {P : Char → Prop} {spec : List (List (Char → Bool))}
    {skipP : Char → Bool} (hsp : P ' ') {l : Str} (h : ∀ c ∈ l, P c) :
    ∀ c ∈ scanRun spec skipP l, P c := by
  intro c hc
  rcases scanF_mem l.length l c (le_refl _) hc with h1 | h1
  · exact h c h1
  · exact h1 ▸ hsp

theorem charProp_map {P : Char → Prop} {g : Char → Char}
    (hg : ∀ c, g c = c ∨ g c = ' ') (hsp : P ' ') {l : Str} (h : ∀ c ∈ l, P c) :
    ∀ c ∈ l.map g, P c := by
  intro c hc
  rcases List.mem_map.mp hc with ⟨a, ha, rfl⟩
  rcases hg a with h1 | h1
  · rw [h1]; exact h a ha
  · rw [h1]; exact hsp

theorem charProp_within {P : Char → Prop} {l t : Str} (hinf : t <:+: l)
    (h : ∀ c ∈ l, P c) : ∀ c ∈ t, P c :=
  fun c hc => h c (hinf.sublist.subset hc)

theorem emojiToSpace_cases (c : Char) : emojiToSpace c = c ∨ emojiToSpace c = ' ' := by
  unfold emojiToSpace
  cases h : isEmojiCh c with
  | false => left; rfl
  | true => right; rfl

theorem punctToSpace_cases (c : Char) : punctToSpace c = c ∨ punctToSpace c = ' ' := by
  unfold punctToSpace
  cases h : keepCh2 c with
  | false => right; rfl
  | true => left; rfl

theorem urlRemove_estab (s : Str) :
    noPred urlPs1 (urlRemove s) ∧ noPred urlPs2 (urlRemove s) := by
  constructor
  · exact scanF_estab urlSpec_cond s.length s (le_refl _) urlPs1 (List.mem_cons_self _ _)
  · exact scanF_estab urlSpec_cond s.length s (le_refl _) urlPs2
      (List.mem_cons_of_mem _ (List.mem_cons_self _ _))

theorem mentionRemove_estab (s : Str) : noPred menPs (mentionRemove s) :=
  scanF_estab mentionSpec_cond s.length s (le_refl _) menPs (List.mem_cons_self _ _)

theorem emojiRemove_estab (s : Str) : noEmo (emojiRemove s) := by
  intro c hc
  rcases List.mem_map.mp hc with ⟨a, _, rfl⟩
  unfold emojiToSpace
  cases h : isEmojiCh a with
  | false => exact h
  | true => exact (by decide : isEmojiCh ' ' = false)

theorem punctRemove_estab (s : Str) : keepOk (punctRemove s) := by
  intro c hc
  rcases List.mem_map.mp hc with ⟨a, _, rfl⟩
  unfold punctToSpace
  cases h : keepCh2 a with
  | false => exact (by decide : keepCh2 ' ' = true)
  | true => exact h

theorem collapse_wsSpace :
    ∀ f l, l.length ≤ f → ∀ c ∈ scanF wsSpec isJsWs f l, isJsWs c = true → c = ' ' := by
  intro f
  induction f with
  | zero =>
    intro l hf c hc _
    have : l = [] := List.length_eq_zero.mp (Nat.le_zero.mp hf)
    subst this
    simp [scanF] at hc
  | succ f ih =>
    intro l hf c hc hws
    cases l with
    | nil => simp [scanF] at hc
    | cons a r =>
      have hr : r.length ≤ f := by simpa using hf
      simp only [scanF] at hc
      by_cases hh : scanHit wsSpec (a :: r) = true
      · rw [if_bool_true hh] at hc
        rcases List.mem_cons.mp hc with h1 | h2
        · exact h1
        · exact ih _ (le_trans (dropWhile_len_le isJsWs r) hr) c h2 hws
      · rw [if_bool_false (eq_false_of_ne_true hh)] at hc
        rcases List.mem_cons.mp hc with h1 | h2
        · subst h1
          rw [scanHit_ws] at hh
          exact absurd hws hh
        · exact ih r hr c h2 hws

theorem collapse_noAdj :
    ∀ f l, l.length ≤ f → noPred adjPs (scanF wsSpec isJsWs f l) := by
  intro f
  induction f with
  | zero =>
    intro l hf t ht
    have : l = [] := List.length_eq_zero.mp (Nat.le_zero.mp hf)
    subst this
    have : t = [] := List.suffix_nil.mp ht
    subst this
    rfl
  | succ f ih =>
    intro l hf t ht
    cases l with
    | nil =>
      simp only [scanF] at ht
      have : t = [] := List.suffix_nil.mp ht
      subst this
      rfl
    | cons a r =>
      have hr : r.length ≤ f := by simpa using hf
      simp only [scanF] at ht
      by_cases hh : scanHit wsSpec (a :: r) = true
      · rw [if_bool_true hh] at ht
        rcases List.suffix_cons_iff.mp ht with h1 | h2
        · subst h1
          cases hX : scanF wsSpec isJsWs f (r.dropWhile isJsWs) with
          | nil => simp [adjPs, startsPred]
          | cons d X' =>
            have hd : isJsWs d = false := by
              cases hdw : r.dropWhile isJsWs with
              | nil =>
                rw [hdw] at hX
                cases f <;> simp [scanF] at hX
              | cons e rest =>
                have he : isJsWs e = false :=
                  dropWhile_head_false (by rw [hdw]; rfl)
                have hmiss : scanHit wsSpec (e :: rest) = false := by
                  rw [scanHit_ws, he]
                have hhead := @scanF_head wsSpec isJsWs f (e :: rest) hmiss
                rw [← hdw, hX] at hhead
                simp only [List.head?_cons, hdw] at hhead
                have : d = e := by simpa using hhead
                rw [this, he]
            simp [adjPs, startsPred, hX, hd]
        · exact ih _ (le_trans (dropWhile_len_le isJsWs r) hr) t h2
      · rw [if_bool_false (eq_false_of_ne_true hh)] at ht
        rcases List.suffix_cons_iff.mp ht with h1 | h2
        · subst h1
          rw [scanHit_ws] at hh
          simp [adjPs, startsPred, eq_false_of_ne_true hh]
        · exact ih r hr t h2

theorem noPred_nil_of_ne {ps : List (Char → Bool)} (h : ps ≠ []) : noPred ps [] := by
  intro t ht
  have : t = [] := List.suffix_nil.mp ht
  subst this
  cases ps with
  | nil => exact absurd rfl h
  | cons p ps => rfl

theorem normalized_nil : NormalizedStr [] :=
  ⟨fun c hc => absurd hc (List.not_mem_nil c),
   noPred_nil_of_ne urlPs1_ne, noPred_nil_of_ne urlPs2_ne,
   noPred_nil_of_ne menPs_ne,
   fun c hc => absurd hc (List.not_mem_nil c),
   fun c hc => absurd hc (List.not_mem_nil c),
   noPred_nil_of_ne (by intro h; have hl : adjPs.length = 2 := rfl; rw [h] at hl; simp at hl),
   rfl⟩

theorem normalized2_nil : NormalizedStr2 [] :=
  ⟨normalized_nil, fun c hc => absurd hc (List.not_mem_nil c)⟩

theorem adjPs_ne : adjPs ≠ [] := by
  intro h
  have hl : adjPs.length = 2 := rfl
  rw [h] at hl
  simp at hl

theorem normCore_normalized (s : Str) : NormalizedStr (normCore s) := by
  unfold normCore
  set u1 := stripMarks (nfdStr (lowerStr s)) with hu1
  set u2 := urlRemove u1 with hu2
  set u3 := mentionRemove u2 with hu3
  set u4 := emojiRemove u3 with hu4
  set u5 := collapseWs u4 with hu5
  have ok1 : okChars u1 := step1_okChars s
  have ok2 : okChars u2 := charProp_scan space_charOk ok1
  have ok3 : okChars u3 := charProp_scan space_charOk ok2
  have ok4 : okChars u4 := charProp_map emojiToSpace_cases space_charOk ok3
  have ok5 : okChars u5 := charProp_scan space_charOk ok4
  have hurl2 := urlRemove_estab u1
  have hurl3a : noPred urlPs1 u3 :=
    scanF_preserve urlPs1_space urlPs1_ne u2.length u2 (le_refl _) hurl2.1
  have hurl3b : noPred urlPs2 u3 :=
    scanF_preserve urlPs2_space urlPs2_ne u2.length u2 (le_refl _) hurl2.2
  have hurl4a : noPred urlPs1 u4 := map_space_preserve emojiToSpace_cases urlPs1_space hurl3a
  have hurl4b : noPred urlPs2 u4 := map_space_preserve emojiToSpace_cases urlPs2_space hurl3b
  have hurl5a : noPred urlPs1 u5 :=
    scanF_preserve urlPs1_space urlPs1_ne u4.length u4 (le_refl _) hurl4a
  have hurl5b : noPred urlPs2 u5 :=
    scanF_preserve urlPs2_space urlPs2_ne u4.length u4 (le_refl _) hurl4b
  have hmen3 : noPred menPs u3 := mentionRemove_estab u2
  have hmen4 : noPred menPs u4 := map_space_preserve emojiToSpace_cases menPs_space hmen3
  have hmen5 : noPred menPs u5 :=
    scanF_preserve menPs_space menPs_ne u4.length u4 (le_refl _) hmen4
  have hemo4 : noEmo u4 := emojiRemove_estab u3
  have hemo5 : noEmo u5 :=
    @charProp_scan (fun c => isEmojiCh c = false) wsSpec isJsWs (by decide) u4 hemo4
  have hws5 : wsSpace u5 :=
    fun c hc hws => collapse_wsSpace u4.length u4 (le_refl _) c hc hws
  have hadj5 : noPred adjPs u5 := collapse_noAdj u4.length u4 (le_refl _)
  exact ⟨charProp_within (trimWs_within u5) ok5,
         noPred_of_within (trimWs_within u5) hurl5a,
         noPred_of_within (trimWs_within u5) hurl5b,
         noPred_of_within (trimWs_within u5) hmen5,
         charProp_within (trimWs_within u5) hemo5,
         fun c hc => hws5 c ((trimWs_within u5).sublist.subset hc),
         noPred_of_within (trimWs_within u5) hadj5,
         trimWs_idem u5⟩

theorem normCore2_normalized (s : Str) : NormalizedStr2 (normCore2 s) := by
  unfold normCore2
  set u1 := stripMarks (nfdStr (lowerStr s)) with hu1
  set u2 := urlRemove u1 with hu2
  set u3 := mentionRemove u2 with hu3
  set u4 := emojiRemove u3 with hu4
  set u4p := punctRemove u4 with hu4p
  set u5 := collapseWs u4p with hu5
  have ok1 : okChars u1 := step1_okChars s
  have ok2 : okChars u2 := charProp_scan space_charOk ok1
  have ok3 : okChars u3 := charProp_scan space_charOk ok2
  have ok4 : okChars u4 := charProp_map emojiToSpace_cases space_charOk ok3
  have ok4p : okChars u4p := charProp_map punctToSpace_cases space_charOk ok4
  have ok5 : okChars u5 := charProp_scan space_charOk ok4p
  have hurl2 := urlRemove_estab u1
  have hurl3a : noPred urlPs1 u3 :=
    scanF_preserve urlPs1_space urlPs1_ne u2.length u2 (le_refl _) hurl2.1
  have hurl3b : noPred urlPs2 u3 :=
    scanF_preserve urlPs2_space urlPs2_ne u2.length u2 (le_refl _) hurl2.2
  have hurl4a : noPred urlPs1 u4 := map_space_preserve emojiToSpace_cases urlPs1_space hurl3a
  have hurl4b : noPred urlPs2 u4 := map_space_preserve emojiToSpace_cases urlPs2_space hurl3b
  have hurl4pa : noPred urlPs1 u4p := map_space_preserve punctToSpace_cases urlPs1_space hurl4a
  have hurl4pb : noPred urlPs2 u4p := map_space_preserve punctToSpace_cases urlPs2_space hurl4b
  have hurl5a : noPred urlPs1 u5 :=
    scanF_preserve urlPs1_space urlPs1_ne u4p.length u4p (le_refl _) hurl4pa
  have hurl5b : noPred urlPs2 u5 :=
    scanF_preserve urlPs2_space urlPs2_ne u4p.length u4p (le_refl _) hurl4pb
  have hmen3 : noPred menPs u3 := mentionRemove_estab u2
  have hmen4 : noPred menPs u4 := map_space_preserve emojiToSpace_cases menPs_space hmen3
  have hmen4p : noPred menPs u4p := map_space_preserve punctToSpace_cases menPs_space hmen4
  have hmen5 : noPred menPs u5 :=
    scanF_preserve menPs_space menPs_ne u4p.length u4p (le_refl _) hmen4p
  have hemo4 : noEmo u4 := emojiRemove_estab u3
  have hemo4p : noEmo u4p :=
    @charProp_map (fun c => isEmojiCh c = false) punctToSpace punctToSpace_cases
      (by decide) u4 hemo4
  have hemo5 : noEmo u5 :=
    @charProp_scan (fun c => isEmojiCh c = false) wsSpec isJsWs (by decide) u4p hemo4p
  have hk4p : keepOk u4p := punctRemove_estab u4
  have hk5 : keepOk u5 :=
    @charProp_scan (fun c => keepCh2 c = true) wsSpec isJsWs (by decide) u4p hk4p
  have hws5 : wsSpace u5 :=
    fun c hc hws => collapse_wsSpace u4p.length u4p (le_refl _) c hc hws
  have hadj5 : noPred adjPs u5 := collapse_noAdj u4p.length u4p (le_refl _)
  refine ⟨⟨charProp_within (trimWs_within u5) ok5,
          noPred_of_within (trimWs_within u5) hurl5a,
          noPred_of_within (trimWs_within u5) hurl5b,
          noPred_of_within (trimWs_within u5) hmen5,
          charProp_within (trimWs_within u5) hemo5,
          fun c hc => hws5 c ((trimWs_within u5).sublist.subset hc),
          noPred_of_within (trimWs_within u5) hadj5,
          trimWs_idem u5⟩,
         charProp_within (trimWs_within u5) hk5⟩

theorem normCore_fix {t : Str} (h : NormalizedStr t) : normCore t = t := by
  obtain ⟨hok, h1, h2, hm, he, hw, ha, htr⟩ := h
  unfold normCore
  rw [lowerStr_fix hok, nfdStr_fix hok, stripMarks_fix hok, urlRemove_fix h1 h2,
      mentionRemove_fix hm, emojiRemove_fix he, collapseWs_fix hw ha, htr]

theorem normCore2_fix {t : Str} (h : NormalizedStr2 t) : normCore2 t = t := by
  obtain ⟨⟨hok, h1, h2, hm, he, hw, ha, htr⟩, hk⟩ := h
  unfold normCore2
  rw [lowerStr_fix hok, nfdStr_fix hok, stripMarks_fix hok, urlRemove_fix h1 h2,
      mentionRemove_fix hm, emojiRemove_fix he, punctRemove_fix hk,
      collapseWs_fix hw ha, htr]

theorem normalizeText_eq_core (s : Str) :
    normalizeText s = if s.isEmpty then [] else normCore s := rfl

theorem normalizeText2_eq_core (s : Str) :
    normalizeText2 s = if s.isEmpty then [] else normCore2 s := rfl

theorem normalizeText_normalized (s : Str) : NormalizedStr (normalizeText s) := by
  rw [normalizeText_eq_core]
  cases hs : s.isEmpty with
  | true => exact normalized_nil
  | false => exact normCore_normalized s

theorem normalizeText2_normalized (s : Str) : NormalizedStr2 (normalizeText2 s) := by
  rw [normalizeText2_eq_core]
  cases hs : s.isEmpty with
  | true => exact normalized2_nil
  | false => exact normCore2_normalized s

theorem normalizeText_fix {t : Str} (h : NormalizedStr t) : normalizeText t = t := by
  rw [normalizeText_eq_core]
  cases ht : t.isEmpty with
  | true => exact (List.isEmpty_iff.mp ht).symm
  | false => exact normCore_fix h

theorem normalizeText2_fix {t : Str} (h : NormalizedStr2 t) : normalizeText2 t = t := by
  rw [normalizeText2_eq_core]
  cases ht : t.isEmpty with
  | true => exact (List.isEmpty_iff.mp ht).symm
  | false => exact normCore2_fix h

theorem normalizeText_idem (s : Str) :
    normalizeText (normalizeText s) = normalizeText s :=
  normalizeText_fix (normalizeText_normalized s)

theorem normalizeText2_idem (s : Str) :
    normalizeText2 (normalizeText2 s) = normalizeText2 s :=
  normalizeText2_fix (normalizeText2_normalized s)

theorem flatMap_id_of_mem {g : Char → List Char} :
    ∀ {s : Str}, (∀ c ∈ s, g c = [c]) → s.flatMap g = s := by
  intro s
  induction s with
  | nil => intro _; rfl
  | cons c r ih =>
    intro h
    rw [List.flatMap_cons, h c (List.mem_cons_self _ _),
        ih fun d hd => h d (List.mem_cons_of_mem _ hd)]
    rfl

theorem toLowerCh_ws {c : Char} (h : isJsWs c = true) : toLowerCh c = c := by
  unfold toLowerCh
  cases hl : lowerPairs.lookup c with
  | none => rfl
  | some l =>
    have hmem : (c, l) ∈ lowerPairs := lookup_mem hl
    have hall : ∀ p ∈ lowerPairs, isJsWs p.1 = false := by decide
    have := hall (c, l) hmem
    rw [h] at this
    exact absurd this (by simp)

theorem decomposeCh_ws {c : Char} (h : isJsWs c = true) : decomposeCh c = [c] := by
  unfold decomposeCh
  cases hl : decompPairs.lookup c with
  | none => rfl
  | some l =>
    have hmem : (c, l) ∈ decompPairs := lookup_mem hl
    have hall : ∀ p ∈ decompPairs, isJsWs p.1 = false := by decide
    have := hall (c, l) hmem
    rw [h] at this
    exact absurd this (by simp)

theorem ws_not_mark {c : Char} (h : isJsWs c = true) : isMark c = false := by
  simp only [isJsWs, Bool.or_eq_true, beq_iff_eq, Bool.and_eq_true,
    decide_eq_true_eq] at h
  simp only [isMark, Bool.and_eq_true, decide_eq_true_eq,
    Bool.and_eq_false_iff, decide_eq_false_iff_not, not_le]
  omega

theorem ws_not_emoji {c : Char} (h : isJsWs c = true) : isEmojiCh c = false := by
  simp only [isJsWs, Bool.or_eq_true, beq_iff_eq, Bool.and_eq_true,
    decide_eq_true_eq] at h
  simp only [isEmojiCh, Bool.or_eq_false_iff, Bool.and_eq_false_iff,
    decide_eq_false_iff_not, not_le]
  omega

theorem ws_not_h {c : Char} (h : isJsWs c = true) : charEq 'h' c = false := by
  cases he : charEq 'h' c with
  | false => rfl
  | true =>
    have : c = 'h' := eq_of_beq he
    subst this
    exact absurd h (by decide)

theorem ws_not_atHash {c : Char} (h : isJsWs c = true) : atHash c = false := by
  cases he : atHash c with
  | false => rfl
  | true =>
    simp only [atHash, Bool.or_eq_true, beq_iff_eq] at he
    rcases he with rfl | rfl
    · exact absurd h (by decide)
    · exact absurd h (by decide)

theorem noPred_headF {q : Char → Bool} {rest : List (Char → Bool)} {s : Str}
    (hq : ∀ c ∈ s, q c = false) : noPred (q :: rest) s := by
  intro t ht
  cases t with
  | nil => rfl
  | cons c r =>
    simp only [startsPred]
    rw [hq c (ht.sublist.subset (List.mem_cons_self _ _))]
    rfl

theorem allWs_dropWhile {r : Str} (h : ∀ c ∈ r, isJsWs c = true) :
    r.dropWhile isJsWs = [] := by
  induction r with
  | nil => rfl
  | cons c r ih =>
    rw [List.dropWhile, h c (List.mem_cons_self _ _)]
    exact ih fun d hd => h d (List.mem_cons_of_mem _ hd)

theorem allWs_normalize {s : Str} (h : ∀ c ∈ s, isJsWs c = true) :
    normalizeText s = [] ∧ normalizeText2 s = [] := by
  have hlow : lowerStr s = s := map_id_of_mem fun c hc => toLowerCh_ws (h c hc)
  have hnfd : nfdStr s = s := flatMap_id_of_mem fun c hc => decomposeCh_ws (h c hc)
  have hstrip : stripMarks s = s :=
    List.filter_eq_self.mpr fun c hc => by rw [ws_not_mark (h c hc)]; rfl
  have hurl : urlRemove s = s := by
    apply urlRemove_fix
    · exact noPred_headF fun c hc => ws_not_h (h c hc)
    · exact noPred_headF fun c hc => ws_not_h (h c hc)
  have hmen : mentionRemove s = s :=
    mentionRemove_fix (noPred_headF fun c hc => ws_not_atHash (h c hc))
  have hemo : emojiRemove s = s :=
    map_id_of_mem fun c hc => by
      unfold emojiToSpace; rw [ws_not_emoji (h c hc)]; rfl
  have hpun : punctRemove s = s :=
    map_id_of_mem fun c hc => by
      unfold punctToSpace
      have : keepCh2 c = true := by
        unfold keepCh2; rw [h c hc]; simp
      rw [this]
      rfl
  have hcoltrim : trimWs (collapseWs s) = [] := by
    cases s with
    | nil => rfl
    | cons c r =>
      have hc := h c (List.mem_cons_self _ _)
      have hhit : scanHit wsSpec (c :: r) = true := by rw [scanHit_ws, hc]
      have hcol : collapseWs (c :: r) = [' '] := by
        unfold collapseWs
        rw [scanRun_cons_hit hhit,
            allWs_dropWhile fun d hd => h d (List.mem_cons_of_mem _ hd)]
        rfl
      rw [hcol]
      rfl
  constructor
  · rw [normalizeText_eq_core]
    cases hs : s.isEmpty with
    | true => rfl
    | false =>
      show normCore s = []
      unfold normCore
      rw [hlow, hnfd, hstrip, hurl, hmen, hemo, hcoltrim]
  · rw [normalizeText2_eq_core]
    cases hs : s.isEmpty with
    | true => rfl
    | false =>
      show normCore2 s = []
      unfold normCore2
      rw [hlow, hnfd, hstrip, hurl, hmen, hemo, hpun, hcoltrim]

/-- Claim C3: the text normalizer is idempotent (in both source variants), and
maps every empty or whitespace-only input to the empty string. -/
theorem claim_C3_normalizer_idempotent :
    (∀ s : Str, normalizeText (normalizeText s) = normalizeText s) ∧
    (∀ s : Str, normalizeText2 (normalizeText2 s) = normalizeText2 s) ∧
    (∀ s : Str, (∀ c ∈ s, isJsWs c = true) →
      normalizeText s = [] ∧ normalizeText2 s = []) :=
  ⟨normalizeText_idem, normalizeText2_idem, fun _ h => allWs_normalize h⟩

theorem claim_C3_witness :
    normalizeText ("  ".toList) = [] ∧ normalizeText2 ("\t \n".toList) = [] :=
  ⟨(claim_C3_normalizer_idempotent.2.2 "  ".toList (by decide)).1,
   (claim_C3_normalizer_idempotent.2.2 "\t \n".toList (by decide)).2⟩

/-- Claim C4 as stated is false of the alternate-variant expander: `"ab"` has
length 2 > 1 and does not end in `"s"`, yet its expansion does not contain
`"abs"` (that variant only adds a plural above length 2). -/
theorem claim_C4_counterexample :
    1 < (['a', 'b'] : Str).length ∧
    ['a', 'b', 's'] ∉ generateWordVariations2 ['a', 'b'] := by
  decide

/-- Claim C4, amended: the `dom-utils.js` expander includes, for every keyword
of length > 1, the keyword, its `+s` plural when it does not end in `s`, and
the trailing-`s`-removed singular when it does; the alternate expander gives
those guarantees only for keywords of length > 2, with the singular requiring
length > 3; expanding `["job"]` and `["jobs"]` yields sets containing both
`"job"` and `"jobs"` in both variants. -/
theorem claim_C4_pluralization_amended :
    (∀ w : Str, 1 < w.length →
       w ∈ generateWordVariations w ∧
       (endsInS w = false → w ++ ['s'] ∈ generateWordVariations w) ∧
       (endsInS w = true → w.dropLast ∈ generateWordVariations w)) ∧
    (∀ w : Str, 2 < w.length →
       w ∈ generateWordVariations2 w ∧
       (endsInS w = false → w ++ ['s'] ∈ generateWordVariations2 w) ∧
       (endsInS w = true → 3 < w.length → w.dropLast ∈ generateWordVariations2 w)) ∧
    ("job".toList ∈ generateNormalizedWordSet ["job".toList] ∧
     "jobs".toList ∈ generateNormalizedWordSet ["job".toList] ∧
     "jobs".toList ∈ generateNormalizedWordSet ["jobs".toList] ∧
     "job".toList ∈ generateNormalizedWordSet ["jobs".toList] ∧
     "job".toList ∈ generateNormalizedWordSet2 ["job".toList] ∧
     "jobs".toList ∈ generateNormalizedWordSet2 ["job".toList] ∧
     "jobs".toList ∈ generateNormalizedWordSet2 ["jobs".toList] ∧
     "job".toList ∈ generateNormalizedWordSet2 ["jobs".toList]) := by
  refine ⟨?_, ?_, ?_⟩
  · intro w hw
    have hne : w.isEmpty = false := by
      cases w with
      | nil => simp at hw
      | cons c r => rfl
    refine ⟨?_, ?_, ?_⟩
    · simp [generateWordVariations, hne]
    · intro hes
      simp [generateWordVariations, hne, hes]
    · intro hes
      simp [generateWordVariations, hne, hes, hw]
  · intro w hw
    have hge : (w.length < 2) = False := by simp; omega
    refine ⟨?_, ?_, ?_⟩
    · simp [generateWordVariations2, hge]
    · intro hes
      simp [generateWordVariations2, hge, hes, hw]
    · intro hes hw3
      simp [generateWordVariations2, hge, hes, hw, hw3]
  · decide

theorem claim_C4_witness :
    "job".toList ∈ generateWordVariations "job".toList ∧
    "job".toList ++ ['s'] ∈ generateWordVariations "job".toList :=
  ⟨(claim_C4_pluralization_amended.1 "job".toList (by decide)).1,
   (claim_C4_pluralization_amended.1 "job".toList (by decide)).2.1 (by decide)⟩

/-- Claim C5 as stated is false of the `dom-utils.js` expander: the length-1
keyword `"a"` does not pass through unexpanded; its expansion also contains
the plural variant `"as"`. -/
theorem claim_C5_counterexample :
    (['a'] : Str).length ≤ 1 ∧ ['a', 's'] ∈ generateWordVariations ['a'] := by
  decide

/-- Claim C5, amended: in the alternate variant, keywords of length ≤ 1 pass
through unexpanded; in the `dom-utils.js` variant a length-1 keyword other
than `"s"` additionally receives its `+s` plural variant (only `"s"` itself
and the empty keyword gain no variant). -/
theorem claim_C5_short_keywords_amended :
    (∀ w : Str, w.length ≤ 1 → generateWordVariations2 w = [w]) ∧
    (∀ c : Char, (c == 's') = false → generateWordVariations [c] = [[c], [c, 's']]) ∧
    generateWordVariations ['s'] = [['s']] ∧
    generateWordVariations [] = [] := by
  refine ⟨?_, ?_, by decide, by decide⟩
  · intro w hw
    cases w with
    | nil => rfl
    | cons a t =>
      cases t with
      | nil => rfl
      | cons b t' => simp at hw
  · intro c hc
    have hes : endsInS [c] = false := by
      simp only [endsInS, List.getLast?_singleton]
      simpa using hc
    simp [generateWordVariations, hes]

theorem claim_C5_witness :
    generateWordVariations2 ['a'] = [['a']] ∧
    generateWordVariations ['b'] = [['b'], ['b', 's']] :=
  ⟨claim_C5_short_keywords_amended.1 ['a'] (by decide),
   claim_C5_short_keywords_amended.2.1 'b' (by decide)⟩

theorem toLowerCh_word {c : Char} (h : isWordCh c = true) :
    isWordCh (toLowerCh c) = true := by
  unfold toLowerCh
  cases hl : lowerPairs.lookup c with
  | none => exact h
  | some l =>
    have hmem : (c, l) ∈ lowerPairs := lookup_mem hl
    have hall : ∀ p ∈ lowerPairs, isWordCh p.1 = false ∨ isWordCh p.2 = true := by
      decide
    rcases hall (c, l) hmem with h1 | h1
    · rw [h] at h1; exact absurd h1 (by simp)
    · exact h1

theorem tokensAux_word_run :
    ∀ (w acc s : Str), (∀ c ∈ w, isWordCh c = true) →
      tokensAux acc (w ++ s) = tokensAux (w.reverse ++ acc) s := by
  intro w
  induction w with
  | nil => intro acc s _; simp
  | cons c w ih =>
    intro acc s hw
    have hc : isWordCh c = true := hw c (List.mem_cons_self _ _)
    show tokensAux acc (c :: (w ++ s)) = tokensAux ((c :: w).reverse ++ acc) s
    rw [tokensAux, if_bool_true hc,
        ih (c :: acc) s fun d hd => hw d (List.mem_cons_of_mem _ hd)]
    congr 1
    simp

theorem tokensAux_break :
    ∀ (pre : Str), (∃ d, pre.getLast? = some d ∧ isWordCh d = false) →
      ∀ (acc rest : Str), ∃ hs, tokensAux acc (pre ++ rest) = hs ++ tokensAux [] rest := by
  intro pre
  induction pre with
  | nil =>
    intro hd
    rcases hd with ⟨d, hd, _⟩
    simp at hd
  | cons c pre ih =>
    intro hd acc rest
    cases pre with
    | nil =>
      rcases hd with ⟨d, hd, hdw⟩
      have hcd : d = c := by
        simp only [List.getLast?_singleton, Option.some.injEq] at hd
        exact hd.symm
      subst hcd
      show ∃ hs, tokensAux acc (d :: rest) = hs ++ tokensAux [] rest
      rw [tokensAux, if_bool_false hdw]
      by_cases hacc : acc.isEmpty = true
      · rw [if_bool_true hacc]
        exact ⟨[], rfl⟩
      · rw [if_bool_false (eq_false_of_ne_true hacc)]
        exact ⟨[acc.reverse], rfl⟩
    | cons e pre' =>
      have hd' : ∃ d, (e :: pre').getLast? = some d ∧ isWordCh d = false := by
        rcases hd with ⟨d, hd, hdw⟩
        rw [List.getLast?_cons_cons] at hd
        exact ⟨d, hd, hdw⟩
      show ∃ hs, tokensAux acc (c :: ((e :: pre') ++ rest)) = hs ++ tokensAux [] rest
      rw [tokensAux]
      by_cases hcw : isWordCh c = true
      · rw [if_bool_true hcw]
        exact ih hd' (c :: acc) rest
      · rw [if_bool_false (eq_false_of_ne_true hcw)]
        rcases ih hd' [] rest with ⟨hs, heq⟩
        by_cases hacc : acc.isEmpty = true
        · rw [if_bool_true hacc]
          exact ⟨hs, heq⟩
        · rw [if_bool_false (eq_false_of_ne_true hacc), heq]
          exact ⟨acc.reverse :: hs, rfl⟩

theorem tokensAux_mem_kernel {w suf : Str} (hne : w ≠ [])
    (hw : ∀ c ∈ w, isWordCh c = true)
    (hsuf : suf = [] ∨ ∃ d, suf.head? = some d ∧ isWordCh d = false) :
    w ∈ tokensAux [] (w ++ suf) := by
  rw [tokensAux_word_run w [] suf hw]
  rw [List.append_nil]
  have hrne : w.reverse.isEmpty = false := by
    cases hwr : w.reverse.isEmpty
    · rfl
    · exact absurd (by simpa using List.isEmpty_iff.mp hwr) hne
  rcases hsuf with rfl | ⟨d, hd, hdw⟩
  · rw [tokensAux, if_bool_false hrne]
    rw [List.reverse_reverse]
    exact List.mem_singleton.mpr rfl
  · cases suf with
    | nil => simp at hd
    | cons d' s' =>
      simp only [List.head?_cons, Option.some.injEq] at hd
      subst hd
      rw [tokensAux, if_bool_false hdw, if_bool_false hrne, List.reverse_reverse]
      exact List.mem_cons_self _ _

theorem isPrefixOf_to_append :
    ∀ {l₁ l₂ : Str}, l₁.isPrefixOf l₂ = true → ∃ t, l₁ ++ t = l₂ := by
  intro l₁
  induction l₁ with
  | nil => intro l₂ _; exact ⟨l₂, rfl⟩
  | cons c r ih =>
    intro l₂ h
    cases l₂ with
    | nil => simp [List.isPrefixOf] at h
    | cons d s =>
      simp only [List.isPrefixOf, Bool.and_eq_true, beq_iff_eq] at h
      rcases ih h.2 with ⟨t, ht⟩
      exact ⟨t, by rw [h.1, List.cons_append, ht]⟩

theorem mem_of_getElem_some {α : Type} {l : List α} {n : Nat} {a : α}
    (h : l[n]? = some a) : a ∈ l := by
  rcases List.getElem?_eq_some.mp h with ⟨hlt, hget⟩
  exact hget ▸ List.getElem_mem hlt

theorem matcher_sound {text kw : Str} (hkw : ∀ c ∈ kw, isWordCh c = true)
    (h : matchesAny text [kw] = true) :
    kw.map toLowerCh ∈ wordTokens (text.map toLowerCh) := by
  unfold matchesAny at h
  by_cases hcond : (text.isEmpty || ([kw] : List Str).isEmpty) = true
  · rw [if_bool_true hcond] at h
    exact absurd h (by simp)
  rw [if_bool_false (eq_false_of_ne_true hcond)] at h
  simp only [List.any_cons, List.any_nil, Bool.or_false, Bool.and_eq_true] at h
  obtain ⟨hkne, hrt⟩ := h
  have hkne' : kw ≠ [] := by
    cases kw with
    | nil => simp at hkne
    | cons a b => simp
  rcases List.any_eq_true.mp hrt with ⟨i, himem, hi⟩
  simp only [Bool.and_eq_true] at hi
  obtain ⟨⟨hpref, hb1⟩, hb2⟩ := hi
  set L := text.map toLowerCh with hLdef
  set wL := kw.map toLowerCh with hwLdef
  have hwlen : wL.length = kw.length := List.length_map _ _
  have hwLw : ∀ c ∈ wL, isWordCh c = true := by
    intro c hc
    rcases List.mem_map.mp hc with ⟨a, ha, rfl⟩
    exact toLowerCh_word (hkw a ha)
  have hwLne : wL ≠ [] := by
    intro hz
    exact hkne' (List.map_eq_nil_iff.mp hz)
  rcases isPrefixOf_to_append hpref with ⟨suf0, hsuf0⟩
  have hsufeq : suf0 = L.drop (i + wL.length) := by
    have h1 : (L.drop i).drop wL.length = suf0 := by
      rw [← hsuf0]
      exact List.drop_left wL suf0
    rw [List.drop_drop] at h1
    exact h1.symm
  have hsplit : L = L.take i ++ (wL ++ L.drop (i + wL.length)) := by
    conv_lhs => rw [← List.take_append_drop i L]
    rw [← hsuf0, hsufeq]
  obtain ⟨e, wrest, hwcons⟩ : ∃ e wrest, wL = e :: wrest := by
    cases hwc : wL with
    | nil => exact absurd hwc hwLne
    | cons a b => exact ⟨a, b, rfl⟩
  have hLi : L[i]? = some e := by
    have h0 : (L.drop i)[0]? = L[i + 0]? := List.getElem?_drop L i 0
    rw [← hsuf0, hwcons] at h0
    simpa using h0.symm
  have hiLt : i < L.length := by
    have := List.getElem?_eq_some.mp hLi
    exact this.1
  have hwordAt_i : wordAt L i = true := by
    unfold wordAt
    rw [hLi]
    exact hwLw e (hwcons ▸ List.mem_cons_self _ _)
  have hwLlen1 : wL.length = wrest.length + 1 := by
    rw [hwcons]
    rfl
  have hklt : wL.length - 1 < wL.length := by omega
  obtain ⟨dk, hWk⟩ : ∃ d, wL[wL.length - 1]? = some d := by
    cases hq : wL[wL.length - 1]? with
    | none =>
      rw [List.getElem?_eq_none_iff] at hq
      omega
    | some d => exact ⟨d, rfl⟩
  have hwordAt_k : wordAt L (i + (wL.length - 1)) = true := by
    unfold wordAt
    have h0 : (L.drop i)[wL.length - 1]? = L[i + (wL.length - 1)]? :=
      List.getElem?_drop L i (wL.length - 1)
    rw [← hsuf0] at h0
    rw [List.getElem?_append, if_pos hklt, hWk] at h0
    rw [← h0]
    exact hwLw dk (mem_of_getElem_some hWk)
  have hik : i + wL.length = (i + (wL.length - 1)) + 1 := by omega
  have hafter : wordAt L (i + wL.length) = false := by
    have hb2' : bAt L (i + wL.length) = true := by
      rw [hwlen] at hik ⊢
      rw [hwlen] at hwordAt_k
      exact hb2
    rw [hik] at hb2'
    unfold bAt at hb2'
    rw [show (match (i + (wL.length - 1)) + 1 with
              | 0 => false
              | j + 1 => wordAt L j) = wordAt L (i + (wL.length - 1)) from rfl,
        hwordAt_k] at hb2'
    cases hx : wordAt L ((i + (wL.length - 1)) + 1) with
    | false => rw [hik]; exact hx
    | true =>
      rw [hx] at hb2'
      simp at hb2'
  have hsufcase : L.drop (i + wL.length) = [] ∨
      ∃ d, (L.drop (i + wL.length)).head? = some d ∧ isWordCh d = false := by
    cases hs : L.drop (i + wL.length) with
    | nil => exact Or.inl rfl
    | cons d s' =>
      right
      refine ⟨d, rfl, ?_⟩
      have h0 : (L.drop (i + wL.length))[0]? = L[(i + wL.length) + 0]? :=
        List.getElem?_drop L (i + wL.length) 0
      rw [hs] at h0
      unfold wordAt at hafter
      rw [show (i + wL.length) + 0 = i + wL.length by omega] at h0
      rw [← h0] at hafter
      simpa using hafter
  have hprecase : L.take i = [] ∨
      ∃ d, (L.take i).getLast? = some d ∧ isWordCh d = false := by
    cases i with
    | zero => exact Or.inl rfl
    | succ j =>
      right
      have hb1' : (wordAt L j != wordAt L (j + 1)) = true := hb1
      rw [hwordAt_i] at hb1'
      have hwj : wordAt L j = false := by
        cases hx : wordAt L j with
        | false => rfl
        | true =>
          rw [hx] at hb1'
          simp at hb1'
      have hjlt : j < L.length := by omega
      obtain ⟨d, hgetj⟩ : ∃ d, L[j]? = some d := by
        cases hq : L[j]? with
        | none =>
          rw [List.getElem?_eq_none_iff] at hq
          omega
        | some d => exact ⟨d, rfl⟩
      refine ⟨d, ?_, ?_⟩
      · rw [List.getLast?_eq_getElem?]
        have hlen : (L.take (j + 1)).length = j + 1 := by
          rw [List.length_take]
          omega
        rw [hlen]
        simp only [Nat.add_sub_cancel]
        rw [List.getElem?_take]
        rw [if_pos (by omega : j < j + 1)]
        exact hgetj
      · unfold wordAt at hwj
        rw [hgetj] at hwj
        exact hwj
  show wL ∈ tokensAux [] L
  rw [hsplit]
  rcases hprecase with hpre0 | hprelast
  · rw [hpre0, List.nil_append]
    exact tokensAux_mem_kernel hwLne hwLw hsufcase
  · rcases tokensAux_break (L.take i) hprelast [] (wL ++ L.drop (i + wL.length))
      with ⟨hs, heq⟩
    rw [heq]
    exact List.mem_append_right _ (tokensAux_mem_kernel hwLne hwLw hsufcase)

theorem matcher2_sound {text kw : Str} (h : matchesAny2 text [kw] = true) :
    kw.map toLowerCh ∈ cleanedTokens (text.map toLowerCh) := by
  unfold matchesAny2 at h
  by_cases hcond : (text.isEmpty || ([kw] : List Str).isEmpty) = true
  · rw [if_bool_true hcond] at h
    exact absurd h (by simp)
  rw [if_bool_false (eq_false_of_ne_true hcond)] at h
  simp only [List.any_cons, List.any_nil, Bool.or_false, Bool.and_eq_true] at h
  rcases List.any_eq_true.mp h.2 with ⟨tw, htw, heq⟩
  exact List.mem_map.mpr ⟨tw, htw, eq_of_beq heq⟩

/-- Claim C2: both matcher variants are whole-word.  In the `dom-utils.js`
regex variant, a keyword made of word characters matches only when its
lower-cased form occurs as a complete `\w`-token of the lower-cased text
(never as a substring of a larger token).  In the alternate (`part_002`)
token-splitting variant, a keyword matches only when it equals one of the
complete whitespace-delimited (and cleaned) tokens of the text, so it can
never match as a substring of a larger token either.  In particular, for
keyword `"ia"`, any text without a standalone `"ia"` token (such as text
containing only `"tecnologia"`) matches in neither variant. -/
theorem claim_C2_whole_word :
    (∀ text kw : Str, (∀ c ∈ kw, isWordCh c = true) →
       matchesAny text [kw] = true →
       kw.map toLowerCh ∈ wordTokens (text.map toLowerCh)) ∧
    (∀ text : Str, "ia".toList ∉ wordTokens (text.map toLowerCh) →
       matchesAny text ["ia".toList] = false) ∧
    (∀ text kw : Str, matchesAny2 text [kw] = true →
       kw.map toLowerCh ∈ cleanedTokens (text.map toLowerCh)) ∧
    (∀ text : Str, "ia".toList ∉ cleanedTokens (text.map toLowerCh) →
       matchesAny2 text ["ia".toList] = false) := by
  refine ⟨?_, ?_, ?_, ?_⟩
  · intro text kw hkw h
    exact matcher_sound hkw h
  · intro text hno
    cases hm : matchesAny text ["ia".toList] with
    | false => rfl
    | true =>
      have hW : ∀ c ∈ ("ia".toList : Str), isWordCh c = true := by decide
      have := matcher_sound hW hm
      rw [show ("ia".toList : Str).map toLowerCh = "ia".toList from rfl] at this
      exact absurd this hno
  · intro text kw h
    exact matcher2_sound h
  · intro text hno
    cases hm : matchesAny2 text ["ia".toList] with
    | false => rfl
    | true =>
      have := matcher2_sound hm
      rw [show ("ia".toList : Str).map toLowerCh = "ia".toList from rfl] at this
      exact absurd this hno

theorem claim_C2_witness :
    matchesAny "a Tecnologia avanca".toList ["ia".toList] = false ∧
    matchesAny2 "a Tecnologia avanca".toList ["ia".toList] = false :=
  ⟨claim_C2_whole_word.2.1 "a Tecnologia avanca".toList (by decide),
   claim_C2_whole_word.2.2.2 "a Tecnologia avanca".toList (by decide)⟩

theorem ws_not_word {c : Char} (h : isJsWs c = true) : isWordCh c = false := by
  simp only [isJsWs, Bool.or_eq_true, beq_iff_eq, Bool.and_eq_true,
    decide_eq_true_eq] at h
  simp only [isWordCh, Bool.or_eq_false_iff, Bool.and_eq_false_iff,
    decide_eq_false_iff_not, not_le, beq_eq_false_iff_ne, ne_eq]
  omega

theorem ws_not_latin {c : Char} (h : isJsWs c = true) : isLatinExt c = false := by
  simp only [isJsWs, Bool.or_eq_true, beq_iff_eq, Bool.and_eq_true,
    decide_eq_true_eq] at h
  simp only [isLatinExt, Bool.and_eq_false_iff, decide_eq_false_iff_not, not_le]
  omega

theorem toLowerCh_ws_back {c : Char} (h : isJsWs (toLowerCh c) = true) :
    isJsWs c = true := by
  by_cases hc : isJsWs c = true
  · exact hc
  unfold toLowerCh at h
  cases hl : lowerPairs.lookup c with
  | none =>
    rw [hl, Option.getD_none] at h
    exact h
  | some l =>
    rw [hl, Option.getD_some] at h
    have hmem : (c, l) ∈ lowerPairs := lookup_mem hl
    have hall : ∀ p ∈ lowerPairs, isJsWs p.2 = false := by decide
    have := hall (c, l) hmem
    rw [h] at this
    exact absurd this (by simp)

/-- Claim C10: in the token-splitting matcher variant, a keyword containing
any whitespace character can never match: the text is compared token by
token, each token cleaned of non-word characters, so no candidate ever
contains whitespace. -/
theorem claim_C10_whitespace_keyword :
    ∀ (text kw : Str), (∃ c ∈ kw, isJsWs c = true) →
      matchesAny2 text [kw] = false := by
  intro text kw hws
  unfold matchesAny2
  by_cases hcond : (text.isEmpty || ([kw] : List Str).isEmpty) = true
  · rw [if_bool_true hcond]
  rw [if_bool_false (eq_false_of_ne_true hcond)]
  simp only [List.any_cons, List.any_nil, Bool.or_false]
  cases hout : (!kw.isEmpty &&
      (splitWs (text.map toLowerCh)).any fun tw =>
        (tw.filter cleanWordCh).map toLowerCh == kw.map toLowerCh) with
  | false => rfl
  | true =>
    exfalso
    simp only [Bool.and_eq_true] at hout
    rcases List.any_eq_true.mp hout.2 with ⟨tw, _, heq⟩
    have heq' : (tw.filter cleanWordCh).map toLowerCh = kw.map toLowerCh :=
      eq_of_beq heq
    rcases hws with ⟨c, hc, hcws⟩
    have hcmem : toLowerCh c ∈ kw.map toLowerCh := List.mem_map_of_mem _ hc
    rw [← heq'] at hcmem
    rcases List.mem_map.mp hcmem with ⟨d, hdmem, hde⟩
    rcases List.mem_filter.mp hdmem with ⟨_, hdkeep⟩
    have hlc : toLowerCh c = c := toLowerCh_ws hcws
    have hdws : isJsWs d = true := by
      apply toLowerCh_ws_back
      rw [hde, hlc]
      exact hcws
    simp only [cleanWordCh, Bool.or_eq_true] at hdkeep
    rcases hdkeep with hk | hk
    · rw [ws_not_word hdws] at hk
      exact absurd hk (by simp)
    · rw [ws_not_latin hdws] at hk
      exact absurd hk (by simp)

theorem claim_C10_witness :
    matchesAny2 "new york is nice".toList ["new york".toList] = false :=
  claim_C10_whitespace_keyword "new york is nice".toList "new york".toList
    ⟨' ', by decide, by decide⟩

/-- Claim C1: the visibility policy returns `false` whenever the filter is
paused or the match set is empty, and otherwise returns `hasMatch` in
blacklist (block) mode and its negation in whitelist (allow) mode, for every
combination of inputs and independently of any item identity. -/
theorem claim_C1_policy_table :
    ∀ (mode : String) (words : List Str) (w : Str) (ws : List Str)
      (hm paused : Bool),
      shouldHidePost ⟨mode, true, words⟩ ws hm = false ∧
      shouldHidePost ⟨mode, paused, words⟩ [] hm = false ∧
      shouldHidePost ⟨"blacklist", false, words⟩ (w :: ws) hm = hm ∧
      shouldHidePost ⟨"whitelist", false, words⟩ (w :: ws) hm = !hm := by
  intro mode words w ws hm paused
  refine ⟨rfl, ?_, ?_, ?_⟩
  · cases paused <;> rfl
  · cases hm <;> rfl
  · cases hm <;> rfl

theorem processPhase2_processed (q : Post) (st : EngineState) :
    (processPhase2 q st).1.processed = q.processed := by
  simp only [processPhase2]
  split
  · rfl
  · split <;> rfl

/-- Claim C6: processing is at-most-once per epoch.  An already-marked post
is returned unchanged with no side effects, and because the marker is set in
the synchronous prefix (before any `await`), every interleaving of two
discoveries of the same unprocessed post produces exactly the post and
engine state of a single complete invocation: the visible side effects
(visibility, counter, notification) occur exactly once. -/
theorem claim_C6_at_most_once :
    (∀ (p : Post) (st : EngineState), p.processed = true →
       processPostRun p st = (p, st)) ∧
    (∀ sched ∈ twoSchedules, ∀ (p : Post) (st : EngineState),
       p.processed = false →
       (runSched ⟨p, st, false, false⟩ sched).post = (processPostRun p st).1 ∧
       (runSched ⟨p, st, false, false⟩ sched).st = (processPostRun p st).2) := by
  constructor
  · intro p st h
    unfold processPostRun
    rw [if_bool_true h]
  · intro sched hmem p st hp
    have hrun : processPostRun p st = processPhase2 { p with processed := true } st := by
      unfold processPostRun
      rw [if_bool_false hp]
    simp only [twoSchedules, List.mem_cons, List.mem_singleton,
      List.not_mem_nil, or_false] at hmem
    rcases hmem with rfl | rfl | rfl | rfl | rfl | rfl <;>
      exact ⟨by simp [runSched, runStep, processPhase1, processPhase2_processed, hp, hrun],
             by simp [runSched, runStep, processPhase1, processPhase2_processed, hp, hrun]⟩

theorem claim_C6_witness :
    (runSched ⟨⟨false, false, false, "x".toList⟩,
               ⟨⟨"blacklist", false, []⟩, [], 0, []⟩, false, false⟩
       [StepTag.p1A, StepTag.p1B, StepTag.p2A, StepTag.p2B]).st =
      (processPostRun ⟨false, false, false, "x".toList⟩
        ⟨⟨"blacklist", false, []⟩, [], 0, []⟩).2 :=
  (claim_C6_at_most_once.2 [StepTag.p1A, StepTag.p1B, StepTag.p2A, StepTag.p2B]
    (by decide) ⟨false, false, false, "x".toList⟩
    ⟨⟨"blacklist", false, []⟩, [], 0, []⟩ rfl).2

theorem processPost_count_bounds (p : Post) (st : EngineState) :
    st.hiddenCount ≤ (processPostRun p st).2.hiddenCount ∧
    (processPostRun p st).2.hiddenCount ≤ st.hiddenCount + 1 := by
  unfold processPostRun
  by_cases hp : p.processed = true
  · rw [if_bool_true hp]
    exact ⟨le_refl _, Nat.le_succ _⟩
  rw [if_bool_false (eq_false_of_ne_true hp)]
  simp only [processPhase2]
  split
  · exact ⟨le_refl _, Nat.le_succ _⟩
  · split
    · exact ⟨Nat.le_succ _, le_refl _⟩
    · exact ⟨le_refl _, Nat.le_succ _⟩

theorem processAll_count_mono :
    ∀ (posts : List Post) (acc : List Post × EngineState),
      acc.2.hiddenCount ≤ (posts.foldl processStep acc).2.hiddenCount := by
  intro posts
  induction posts with
  | nil => intro acc; exact le_refl _
  | cons p posts ih =>
    intro acc
    calc acc.2.hiddenCount
        ≤ (processStep acc p).2.hiddenCount :=
          (processPost_count_bounds p acc.2).1
      _ ≤ ((p :: posts).foldl processStep acc).2.hiddenCount := ih (processStep acc p)

/-- Claim C7: the session hidden counter never decreases while an epoch
lasts, moves in steps of at most one, is incremented exactly when an
invocation actually hides an item, and both a full reprocess and a
navigation reset start processing from a state whose counter is exactly 0
with every processed marker cleared. -/
theorem claim_C7_session_counter :
    (∀ (p : Post) (st : EngineState),
       st.hiddenCount ≤ (processPostRun p st).2.hiddenCount ∧
       (processPostRun p st).2.hiddenCount ≤ st.hiddenCount + 1) ∧
    (∀ (p : Post) (st : EngineState),
       (processPostRun p st).2.hiddenCount = st.hiddenCount + 1 ↔
         p.processed = false ∧ (normalizeText p.text).isEmpty = false ∧
         (processPostRun p st).1.hidden = true) ∧
    (∀ (posts : List Post) (st : EngineState),
       st.hiddenCount ≤ (processAllPosts posts st).2.hiddenCount) ∧
    (∀ (posts : List Post) (st : EngineState),
       ∃ posts₀, reprocessAllPosts posts st =
           processAllPosts posts₀ { st with hiddenCount := 0 } ∧
         posts₀.all (fun q => !q.processed) = true ∧
         ({ st with hiddenCount := 0 } : EngineState).hiddenCount = 0) ∧
    (∀ (posts : List Post) (st : EngineState),
       ∃ posts₀, urlChangeToFeed posts st =
           processAllPosts posts₀ { st with hiddenCount := 0 } ∧
         posts₀.all (fun q => !q.processed) = true) := by
  refine ⟨processPost_count_bounds, ?_, ?_, ?_, ?_⟩
  · intro p st
    unfold processPostRun
    by_cases hp : p.processed = true
    · rw [if_bool_true hp]
      constructor
      · intro h
        have h2 : st.hiddenCount = st.hiddenCount + 1 := h
        omega
      · intro h
        rw [hp] at h
        exact absurd h.1 (by simp)
    rw [if_bool_false (eq_false_of_ne_true hp)]
    simp only [processPhase2]
    split
    · rename_i hnt
      constructor
      · intro h
        have h2 : st.hiddenCount = st.hiddenCount + 1 := h
        omega
      · intro h
        rw [h.2.1] at hnt
        exact absurd hnt (by simp)
    · rename_i hnt
      split
      · constructor
        · intro _
          exact ⟨eq_false_of_ne_true hp, eq_false_of_ne_true hnt, rfl⟩
        · intro _
          rfl
      · constructor
        · intro h
          have h2 : st.hiddenCount = st.hiddenCount + 1 := h
          omega
        · intro h
          have h2 := h.2.2
          simp at h2
  · intro posts st
    exact processAll_count_mono posts ([], st)
  · intro posts st
    refine ⟨resetPostsMarkers posts, rfl, ?_, rfl⟩
    rw [List.all_eq_true]
    intro q hq
    rcases List.mem_map.mp hq with ⟨a, _, rfl⟩
    rfl
  · intro posts st
    refine ⟨resetPostsMarkers posts, rfl, ?_⟩
    rw [List.all_eq_true]
    intro q hq
    rcases List.mem_map.mp hq with ⟨a, _, rfl⟩
    rfl

/-- Claim C9: on a configuration read fault the engine installs the safe
default configuration (block mode, not paused, no keywords) with an empty
match set, and in that state no item is ever hidden: processing never sets
an item hidden and never increments the session counter. -/
theorem claim_C9_fault_fallback :
    (∀ e : String, loadConfig (Except.error e) = (fallbackConfig, [])) ∧
    fallbackConfig = ⟨"blacklist", false, []⟩ ∧
    (∀ hm : Bool, shouldHidePost fallbackConfig [] hm = false) ∧
    (∀ (p : Post) (st : EngineState), st.config = fallbackConfig →
       st.wordSet = [] →
       ((processPostRun p st).1.hidden = true → p.hidden = true) ∧
       (processPostRun p st).2.hiddenCount = st.hiddenCount) := by
  refine ⟨fun e => rfl, rfl, fun hm => rfl, ?_⟩
  intro p st hcfg hws
  unfold processPostRun
  by_cases hp : p.processed = true
  · rw [if_bool_true hp]
    exact ⟨fun h => h, rfl⟩
  rw [if_bool_false (eq_false_of_ne_true hp)]
  simp only [processPhase2]
  have hsh : shouldHidePost st.config st.wordSet
      (matchesAny (normalizeText p.text) st.wordSet) = false := by
    rw [hcfg, hws]
    rfl
  split
  · exact ⟨fun h => h, rfl⟩
  · rw [hsh]
    exact ⟨fun h => by simp at h, rfl⟩

theorem claim_C9_witness :
    ((processPostRun ⟨false, false, false, "spam here".toList⟩
        ⟨fallbackConfig, [], 0, []⟩).1.hidden = true →
      (⟨false, false, false, "spam here".toList⟩ : Post).hidden = true) ∧
    (processPostRun ⟨false, false, false, "spam here".toList⟩
        ⟨fallbackConfig, [], 0, []⟩).2.hiddenCount = 0 :=
  claim_C9_fault_fallback.2.2.2 ⟨false, false, false, "spam here".toList⟩
    ⟨fallbackConfig, [], 0, []⟩ rfl rfl

theorem lenSortedDesc_of_pairwise :
    ∀ {l : List Str}, l.Pairwise (fun a b => decide (b.length ≤ a.length) = true) →
      lenSortedDesc l = true := by
  intro l
  induction l with
  | nil => intro _; rfl
  | cons a t ih =>
    intro h
    cases t with
    | nil => rfl
    | cons b r =>
      rw [List.pairwise_cons] at h
      rw [lenSortedDesc, Bool.and_eq_true]
      exact ⟨h.1 b (List.mem_cons_self _ _), ih h.2⟩

/-- Claim C8 as stated is false of the alternate-variant highlighter: for the
match set generated from `["job"]` it applies the shorter variant `"job"`
before the longer `"jobs"` — the applied order is not longest-first. -/
theorem claim_C8_counterexample :
    lenSortedDesc (highlightOrder2 (generateNormalizedWordSet2 ["job".toList])) = false := by
  decide

/-- Claim C8, amended: the `dom-utils.js` highlighter applies keyword
variants longest-first — the order it iterates is a permutation of the match
set sorted by non-increasing length, so a longer variant is always applied
before any strictly shorter one; the alternate variant iterates the match
set in insertion order, which need not be longest-first. -/
theorem claim_C8_longest_first_amended :
    (∀ ws : List Str, lenSortedDesc (highlightOrder ws) = true ∧
       (highlightOrder ws).Perm ws) ∧
    (∀ ws : List Str, highlightOrder2 ws = ws) := by
  constructor
  · intro ws
    constructor
    · apply lenSortedDesc_of_pairwise
      exact List.sorted_mergeSort
        (fun a b c hab hbc => by
          simp only [decide_eq_true_eq] at hab hbc ⊢
          omega)
        (fun a b => by
          simp only [Bool.or_eq_true, decide_eq_true_eq]
          omega)
        ws
    · exact List.mergeSort_perm ws _
  · intro ws
    rfl
